import Mathlib

/-!
Free Fire rescue tower: instrumented sorts and binary search.

A shallow embedding of `src/FreeFire.c`: the global array `torre`, its length
`totalComponentes`, the global counter `comparacoes`, the three sorts
(`bubbleSort`, `insertionSort`, `selectionSort`) and `buscaBinaria`.
Console output and wall-clock timing are left out.
-/

namespace FreeFire

/-! ## Data model -/

/-- Capacity of the global array: `#define MAX_COMPONENTES 20`. -/
def MAX_COMPONENTES : Nat := 20

/-- The `Componente` struct. A C string field is represented by the bytes that
precede its NUL terminator (values of `unsigned char`), `prioridade` is the `int`. -/
structure Componente where
  nome : List Nat
  tipo : List Nat
  prioridade : Int
deriving DecidableEq

instance : Inhabited Componente := ⟨⟨[], [], 0⟩⟩

/-- The three globals of the program: `torre`, `totalComponentes`, `comparacoes`. -/
structure Estado where
  torre : List Componente
  totalComponentes : Nat
  comparacoes : Nat

/-- The bytes of an ASCII string literal. -/
def bytes (s : String) : List Nat := s.toList.map Char.toNat

/-- The libc `strcmp`: byte-wise lexicographic three-way comparison of two strings;
negative, zero or positive as the first string is smaller, equal or greater. -/
def strcmp : List Nat → List Nat → Int
  | [], [] => 0
  | [], _ :: _ => -1
  | _ :: _, [] => 1
  | a :: as, b :: bs => if a < b then -1 else if b < a then 1 else strcmp as bs

/-- The array read `torre[i]`. -/
def ler (t : List Componente) (i : Nat) : Componente := t.getD i default

/-- The array after exchanging slots `i` and `j` through a temporary, as the three
assignments `temp = torre[i]; torre[i] = torre[j]; torre[j] = temp` do. -/
def troca (t : List Componente) (i j : Nat) : List Componente :=
  (t.set i (ler t j)).set j (ler t i)

/-! ## bubbleSort -/

/-- Body of the inner loop of `bubbleSort` at index `j`: count one comparison, swap
`torre[j]` and `torre[j + 1]` when the left name is strictly greater. -/
def bubblePasso (s : Estado) (j : Nat) : Estado :=
  let s1 : Estado := { s with comparacoes := s.comparacoes + 1 }
  if strcmp (ler s1.torre j).nome (ler s1.torre (j + 1)).nome > 0 then
    let temp := ler s1.torre j
    let t1 := s1.torre.set j (ler s1.torre (j + 1))
    let t2 := t1.set (j + 1) temp
    { s1 with torre := t2 }
  else s1

/-- Inner loop of `bubbleSort`: `for (j = 0; j < totalComponentes - i - 1; j++)`. -/
def bubbleInterno (s : Estado) (i : Nat) : Estado :=
  (List.range (s.totalComponentes - i - 1)).foldl bubblePasso s

/-- The function `bubbleSort`: reset the counter, then
`for (i = 0; i < totalComponentes - 1; i++)` run the inner loop. -/
def bubbleSort (s : Estado) : Estado :=
  (List.range (s.totalComponentes - 1)).foldl bubbleInterno { s with comparacoes := 0 }

/-! ## insertionSort -/

/-- The `while (j >= 0)` loop of `insertionSort`. The first argument is `j + 1` for
the C variable `j` (which ranges over `-1 .. i - 1`); the result is the array, the
counter and the final `j + 1`. -/
def insertionLaco (chave : Componente) : Nat → List Componente → Nat → List Componente × Nat × Nat
  | 0, t, c => (t, c, 0)
  | j + 1, t, c =>
    if strcmp (ler t j).tipo chave.tipo > 0 then
      insertionLaco chave j (t.set (j + 1) (ler t j)) (c + 1)
    else (t, c + 1, j + 1)

/-- Body of the outer loop of `insertionSort` at index `i`: take `chave = torre[i]`,
run the while loop from `j = i - 1`, then store `torre[j + 1] = chave`. -/
def insertionPasso (s : Estado) (i : Nat) : Estado :=
  let chave := ler s.torre i
  let r := insertionLaco chave i s.torre s.comparacoes
  { s with torre := r.1.set r.2.2 chave, comparacoes := r.2.1 }

/-- The function `insertionSort`: reset the counter, then
`for (i = 1; i < totalComponentes; i++)` run the body. -/
def insertionSort (s : Estado) : Estado :=
  (List.range' 1 (s.totalComponentes - 1)).foldl insertionPasso { s with comparacoes := 0 }

/-! ## selectionSort -/

/-- Body of the inner loop of `selectionSort` at index `j`; the accumulator is
`(maxIdx, comparacoes)`. -/
def selectionExame (t : List Componente) (acc : Nat × Nat) (j : Nat) : Nat × Nat :=
  (if (ler t j).prioridade > (ler t acc.1).prioridade then j else acc.1, acc.2 + 1)

/-- Body of the outer loop of `selectionSort` at index `i`: scan
`for (j = i + 1; j < totalComponentes; j++)` for the maximum priority, then swap
`torre[i]` and `torre[maxIdx]` when `maxIdx != i`. -/
def selectionPasso (s : Estado) (i : Nat) : Estado :=
  let r := (List.range' (i + 1) (s.totalComponentes - (i + 1))).foldl
    (selectionExame s.torre) (i, s.comparacoes)
  let maxIdx := r.1
  if maxIdx ≠ i then
    let temp := ler s.torre i
    let t1 := s.torre.set i (ler s.torre maxIdx)
    let t2 := t1.set maxIdx temp
    { s with torre := t2, comparacoes := r.2 }
  else { s with comparacoes := r.2 }

/-- The function `selectionSort`: reset the counter, then
`for (i = 0; i < totalComponentes - 1; i++)` run the body. -/
def selectionSort (s : Estado) : Estado :=
  (List.range (s.totalComponentes - 1)).foldl selectionPasso { s with comparacoes := 0 }

/-! ## buscaBinaria -/

/-- What `buscaBinaria` reports: the early warning for an empty tower, the 0-based
index `encontrado` of the component found, or the not-found message. -/
inductive Saida where
  | aviso : Saida
  | encontrado : Int → Saida
  | naoEncontrado : Saida
deriving DecidableEq

/-- The `while (esquerda <= direita)` loop of `buscaBinaria`, from the values of
`esquerda`, `direita` and `comparacoes`; the result is `encontrado` (`-1` when the
loop ends without a match) and the counter. The first argument bounds the number
of iterations; `none` means the bound was reached. -/
def buscaLaco (t : List Componente) (nomeBusca : List Nat) :
    Nat → Int → Int → Nat → Option (Int × Nat)
  | fuel, esquerda, direita, c =>
    if esquerda ≤ direita then
      match fuel with
      | 0 => none
      | fuel + 1 =>
        let meio := esquerda + (direita - esquerda).tdiv 2
        let cmp := strcmp (ler t meio.toNat).nome nomeBusca
        if cmp = 0 then some (meio, c + 1)
        else if cmp < 0 then buscaLaco t nomeBusca fuel (meio + 1) direita (c + 1)
        else buscaLaco t nomeBusca fuel esquerda (meio - 1) (c + 1)
    else some (-1, c)

/-- The function `buscaBinaria` for the name typed by the user: return at once with
a warning when the tower is empty (the counter is not touched), otherwise reset the
counter and bisect `[0, totalComponentes - 1]`. -/
def buscaBinaria (s : Estado) (nomeBusca : List Nat) : Option (Estado × Saida) :=
  if s.totalComponentes = 0 then some (s, Saida.aviso)
  else
    match buscaLaco s.torre nomeBusca s.totalComponentes 0 ((s.totalComponentes : Int) - 1) 0 with
    | none => none
    | some (encontrado, c) =>
      some ({ s with comparacoes := c },
        if encontrado ≠ -1 then Saida.encontrado encontrado else Saida.naoEncontrado)

/-! ## Sample data -/

/-- A record from string literals. -/
def componente (nome tipo : String) (prioridade : Int) : Componente :=
  ⟨bytes nome, bytes tipo, prioridade⟩

/-- The eight records written by `preencherDadosTeste`. -/
def dadosTeste : List Componente :=
  [ componente "Chip Central" "controle" 10,
    componente "Motor Propulsor" "propulsao" 9,
    componente "Antena Satelite" "controle" 8,
    componente "Base Estrutural" "estrutura" 7,
    componente "Painel Solar" "suporte" 6,
    componente "Sistema Navegacao" "controle" 9,
    componente "Tanque Combustivel" "propulsao" 8,
    componente "Escudo Termico" "estrutura" 7 ]

/-- The function `preencherDadosTeste` (with the user confirming the overwrite when
the tower is not empty): slots 0..7 receive the sample records, the other slots keep
their contents, and `totalComponentes` becomes 8. -/
def preencherDadosTeste (s : Estado) : Estado :=
  { s with torre := dadosTeste ++ s.torre.drop 8, totalComponentes := 8 }

/-- The state at program start: twenty zeroed slots, no component, counter zero. -/
def estadoInicial : Estado :=
  ⟨List.replicate MAX_COMPONENTES default, 0, 0⟩

/-- The state after menu option 5 at program start: the eight sample records loaded. -/
def estadoTeste : Estado := preencherDadosTeste estadoInicial

/-- The function `cadastrarComponente` for a record typed by the user: nothing happens
when the tower is full or the priority is outside `1..10`, otherwise the record is
stored at slot `totalComponentes` and the length grows by one. -/
def cadastrarComponente (s : Estado) (novo : Componente) : Estado :=
  if s.totalComponentes ≥ MAX_COMPONENTES then s
  else if novo.prioridade < 1 ∨ novo.prioridade > 10 then s
  else { s with torre := s.torre.set s.totalComponentes novo,
                totalComponentes := s.totalComponentes + 1 }

/-- Three records registered in ascending order of category. -/
def estadoCrescente : Estado :=
  [componente "Chip" "controle" 10, componente "Base" "estrutura" 7,
    componente "Motor" "propulsao" 9].foldl cadastrarComponente estadoInicial

/-- Three records registered in strictly descending order of category. -/
def estadoDecrescente : Estado :=
  [componente "Motor" "propulsao" 9, componente "Base" "estrutura" 7,
    componente "Chip" "controle" 10].foldl cadastrarComponente estadoInicial

/-- The end-to-end example: Motor, Chip and Base registered in that order. -/
def estadoExemplo : Estado :=
  [componente "Motor" "propulsao" 9, componente "Chip" "controle" 10,
    componente "Base" "estrutura" 7].foldl cadastrarComponente estadoInicial

/-- Three records A, B, C with priorities 5, 5, 9, registered in that order. -/
def estadoEmpate : Estado :=
  [componente "A" "suporte" 5, componente "B" "suporte" 5,
    componente "C" "suporte" 9].foldl cadastrarComponente estadoInicial

/-- A tower with the single record Chip. -/
def estadoUnico : Estado :=
  [componente "Chip" "controle" 10].foldl cadastrarComponente estadoInicial

/-- Two records named Chip, of different category and priority, registered before
Base. -/
def estadoRepetido : Estado :=
  [componente "Chip" "controle" 10, componente "Chip" "suporte" 5,
    componente "Base" "estrutura" 7].foldl cadastrarComponente estadoInicial

/-! ## Instrumentation of the search loop -/

/-- The successive values of `meio` in the `while` loop of `buscaBinaria`, that is the
indices at which `torre` is read, for the same arguments as `buscaLaco` (the indices
read before the iteration bound is reached, when it is). -/
def buscaIndices (t : List Componente) (nomeBusca : List Nat) :
    Nat → Int → Int → List Int
  | fuel, esquerda, direita =>
    if esquerda ≤ direita then
      match fuel with
      | 0 => []
      | fuel + 1 =>
        let meio := esquerda + (direita - esquerda).tdiv 2
        let cmp := strcmp (ler t meio.toNat).nome nomeBusca
        if cmp = 0 then [meio]
        else if cmp < 0 then meio :: buscaIndices t nomeBusca fuel (meio + 1) direita
        else meio :: buscaIndices t nomeBusca fuel esquerda (meio - 1)
    else []

/-! ## Counting inversions of category -/

/-- The number of records before slot `i` whose category is strictly greater than the
category at slot `i`: the strict inversions whose right end is `i`. -/
def maiores (t : List Componente) (i : Nat) : Nat :=
  (t.take i).countP (fun r => decide (strcmp r.tipo (ler t i).tipo > 0))

/-- The number of strict inversions of category among the first `n` slots: the pairs
`k < i < n` with `strcmp(tipo(k), tipo(i)) > 0`. -/
def inversoes (t : List Componente) (n : Nat) : Nat :=
  ((List.range' 1 (n - 1)).map (maiores t)).sum

/-- The number of indices `i` in `1 .. n - 1` whose record is not strictly smaller in
category than every record before it. -/
def paradas (t : List Componente) (n : Nat) : Nat :=
  (List.range' 1 (n - 1)).countP (fun i => decide (maiores t i < i))

/-! ## The menu loop of main -/

end FreeFire

namespace FreeFire

/-! ## The order given by `strcmp` -/

theorem strcmp_self (a : List Nat) : strcmp a a = 0 := by
  induction a with
  | nil => rfl
  | cons x xs ih => simp [strcmp, ih]

theorem strcmp_eq_zero : ∀ (a b : List Nat), strcmp a b = 0 → a = b
  | [], [], _ => rfl
  | [], _ :: _, h => by simp [strcmp] at h
  | _ :: _, [], h => by simp [strcmp] at h
  | x :: xs, y :: ys, h => by
    unfold strcmp at h
    split_ifs at h with h1 h2
    all_goals first
      | omega
      | (have hxy : x = y := by omega
         rw [hxy, strcmp_eq_zero xs ys h])

theorem strcmp_eq_zero_iff (a b : List Nat) : strcmp a b = 0 ↔ a = b :=
  ⟨strcmp_eq_zero a b, fun h => h ▸ strcmp_self a⟩

theorem strcmp_antisymm : ∀ (a b : List Nat), strcmp b a = - strcmp a b
  | [], [] => rfl
  | [], _ :: _ => rfl
  | _ :: _, [] => rfl
  | x :: xs, y :: ys => by
    unfold strcmp
    split_ifs <;> first | omega | rfl | exact strcmp_antisymm xs ys

theorem strcmp_le_trans : ∀ (a b c : List Nat),
    strcmp a b ≤ 0 → strcmp b c ≤ 0 → strcmp a c ≤ 0
  | [], _, [], _, _ => by simp [strcmp]
  | [], _, _ :: _, _, _ => by simp [strcmp]
  | _ :: _, [], _, h, _ => by simp [strcmp] at h
  | _ :: _, _ :: _, [], _, h => by simp [strcmp] at h
  | x :: xs, y :: ys, z :: zs, h1, h2 => by
    unfold strcmp at h1 h2 ⊢
    split_ifs at h1 h2 ⊢ <;> first | omega | exact strcmp_le_trans xs ys zs h1 h2

theorem strcmp_gt_trans (a b c : List Nat)
    (h1 : strcmp a b > 0) (h2 : strcmp b c > 0) : strcmp a c > 0 := by
  by_contra h
  have hac : strcmp a c ≤ 0 := by omega
  have hcb : strcmp c b ≤ 0 := by rw [strcmp_antisymm b c]; omega
  have := strcmp_le_trans a c b hac hcb
  omega

/-! ## Array reads and writes -/

theorem ler_eq_getElem (t : List Componente) (i : Nat) (h : i < t.length) :
    ler t i = t[i] := by
  simp [ler, List.getElem?_eq_getElem h]

theorem ler_set_eq (t : List Componente) (i : Nat) (v : Componente) (h : i < t.length) :
    ler (t.set i v) i = v := by
  rw [ler_eq_getElem _ _ (by simpa using h)]
  simp

theorem ler_set_ne (t : List Componente) (i k : Nat) (v : Componente) (h : k ≠ i) :
    ler (t.set i v) k = ler t k := by
  simp only [ler, List.getD_eq_getElem?_getD]
  rw [List.getElem?_set_ne (Ne.symm h)]

theorem ler_append_left (a b : List Componente) (i : Nat) (h : i < a.length) :
    ler (a ++ b) i = ler a i := by
  rw [ler_eq_getElem _ _ (by simp; omega), ler_eq_getElem _ _ h]
  exact List.getElem_append_left h

theorem ler_append_right (a b : List Componente) (i : Nat) (h : a.length ≤ i) :
    ler (a ++ b) i = ler b (i - a.length) := by
  simp only [ler, List.getD_eq_getElem?_getD]
  rw [List.getElem?_append_right h]

theorem ext_ler (t u : List Componente) (hl : t.length = u.length)
    (h : ∀ k, k < t.length → ler t k = ler u k) : t = u := by
  apply List.ext_getElem hl
  intro k h1 h2
  have := h k h1
  rwa [ler_eq_getElem _ _ h1, ler_eq_getElem _ _ h2] at this

/-! ## Swapping two slots -/

theorem set_ler_self (t : List Componente) (i : Nat) : t.set i (ler t i) = t := by
  apply ext_ler _ _ (by simp)
  intro k _
  by_cases hk : k = i
  · subst hk
    by_cases hi : k < t.length
    · exact ler_set_eq _ _ _ hi
    · rw [List.set_eq_of_length_le (by omega)]
  · exact ler_set_ne _ _ _ _ hk

theorem troca_length (t : List Componente) (i j : Nat) : (troca t i j).length = t.length := by
  simp [troca]

theorem ler_troca (t : List Componente) (i j k : Nat) (hi : i < t.length) (hj : j < t.length) :
    ler (troca t i j) k = if k = j then ler t i else if k = i then ler t j else ler t k := by
  unfold troca
  split_ifs with h1 h2
  · subst h1
    exact ler_set_eq _ _ _ (by simpa using hj)
  · subst h2
    rw [ler_set_ne _ _ _ _ h1, ler_set_eq _ _ _ hi]
  · rw [ler_set_ne _ _ _ _ h1, ler_set_ne _ _ _ _ h2]

theorem troca_perm (t : List Componente) (i j : Nat) (hi : i < t.length) (hj : j < t.length) :
    (troca t i j).Perm t := by
  unfold troca
  by_cases hij : i = j
  · subst hij
    rw [set_ler_self, set_ler_self]
  · rw [List.perm_iff_count]
    intro b
    rw [List.count_set _ _ _ _ (by simpa using hj), List.count_set _ _ _ _ hi]
    have h1 := List.boole_getElem_le_count b t i hi
    simp only [List.getElem_set_ne hij, ler_eq_getElem _ _ hi, ler_eq_getElem _ _ hj]
    simp only [beq_iff_eq] at h1 ⊢
    split_ifs at h1 ⊢ <;> omega

/-! ## bubbleSort: the inner loop -/

theorem bubblePasso_torre (s : Estado) (j : Nat) :
    (bubblePasso s j).torre =
      if strcmp (ler s.torre j).nome (ler s.torre (j + 1)).nome > 0
      then troca s.torre j (j + 1) else s.torre := by
  unfold bubblePasso troca
  dsimp only
  split_ifs <;> rfl

theorem bubblePasso_total (s : Estado) (j : Nat) :
    (bubblePasso s j).totalComponentes = s.totalComponentes := by
  unfold bubblePasso
  dsimp only
  split_ifs <;> rfl

theorem bubblePasso_comparacoes (s : Estado) (j : Nat) :
    (bubblePasso s j).comparacoes = s.comparacoes + 1 := by
  unfold bubblePasso
  dsimp only
  split_ifs <;> rfl

theorem bubbleLaco_succ (s : Estado) (m : Nat) :
    (List.range (m + 1)).foldl bubblePasso s =
      bubblePasso ((List.range m).foldl bubblePasso s) m := by
  rw [List.range_succ, List.foldl_append]
  rfl

theorem bubbleLaco_total (s : Estado) (m : Nat) :
    ((List.range m).foldl bubblePasso s).totalComponentes = s.totalComponentes := by
  induction m with
  | zero => rfl
  | succ m ih => rw [bubbleLaco_succ, bubblePasso_total, ih]

theorem bubbleLaco_comparacoes (s : Estado) (m : Nat) :
    ((List.range m).foldl bubblePasso s).comparacoes = s.comparacoes + m := by
  induction m with
  | zero => rfl
  | succ m ih => rw [bubbleLaco_succ, bubblePasso_comparacoes, ih]; omega

theorem bubbleLaco_length (s : Estado) (m : Nat) :
    ((List.range m).foldl bubblePasso s).torre.length = s.torre.length := by
  induction m with
  | zero => rfl
  | succ m ih =>
    rw [bubbleLaco_succ, bubblePasso_torre]
    split_ifs
    · rw [troca_length, ih]
    · exact ih

theorem bubbleLaco_perm (s : Estado) (m : Nat) (hm : m < s.torre.length) :
    ((List.range m).foldl bubblePasso s).torre.Perm s.torre := by
  induction m with
  | zero => exact List.Perm.refl _
  | succ m ih =>
    have hl := bubbleLaco_length s m
    rw [bubbleLaco_succ, bubblePasso_torre]
    split_ifs
    · exact (troca_perm _ _ _ (by omega) (by omega)).trans (ih (by omega))
    · exact ih (by omega)

/-- Slots above the last compared pair are not touched by the inner loop. -/
theorem bubbleLaco_acima (s : Estado) (m k : Nat) (hm : m < s.torre.length) (hk : m < k) :
    ler ((List.range m).foldl bubblePasso s).torre k = ler s.torre k := by
  induction m with
  | zero => rfl
  | succ m ih =>
    have hl := bubbleLaco_length s m
    rw [bubbleLaco_succ, bubblePasso_torre]
    split_ifs
    · rw [ler_troca _ _ _ _ (by omega) (by omega)]
      rw [if_neg (by omega), if_neg (by omega)]
      exact ih (by omega) (by omega)
    · exact ih (by omega) (by omega)

/-- After `m` iterations slot `m` holds a name that is greatest among slots `0..m`. -/
theorem bubbleLaco_maior (s : Estado) (m k : Nat) (hm : m < s.torre.length) (hk : k ≤ m) :
    strcmp (ler ((List.range m).foldl bubblePasso s).torre k).nome
      (ler ((List.range m).foldl bubblePasso s).torre m).nome ≤ 0 := by
  induction m generalizing k with
  | zero =>
    have : k = 0 := by omega
    subst this
    simp [strcmp_self]
  | succ m ih =>
    have hl := bubbleLaco_length s m
    rw [bubbleLaco_succ, bubblePasso_torre]
    split_ifs with h
    · rw [ler_troca _ _ _ _ (by omega) (by omega), ler_troca _ _ _ _ (by omega) (by omega)]
      rw [if_pos rfl]
      by_cases h1 : k = m + 1
      · rw [if_pos h1]; exact le_of_eq (strcmp_self _)
      · rw [if_neg h1]
        by_cases h2 : k = m
        · rw [if_pos h2, strcmp_antisymm]; omega
        · rw [if_neg h2]
          exact ih k (by omega) (by omega)
    · by_cases h1 : k = m + 1
      · subst h1; exact le_of_eq (strcmp_self _)
      · exact strcmp_le_trans _ _ _ (ih k (by omega) (by omega)) (by omega)

/-- Every slot among `0..m` holds, after `m` iterations, a record that was in one of
the slots `0..m` before. -/
theorem bubbleLaco_origem (s : Estado) (m k : Nat) (hm : m < s.torre.length) (hk : k ≤ m) :
    ∃ k', k' ≤ m ∧ ler ((List.range m).foldl bubblePasso s).torre k = ler s.torre k' := by
  induction m generalizing k with
  | zero => exact ⟨k, hk, rfl⟩
  | succ m ih =>
    have hl := bubbleLaco_length s m
    have hac := bubbleLaco_acima s m (m + 1) (by omega) (by omega)
    rw [bubbleLaco_succ, bubblePasso_torre]
    split_ifs with h
    · rw [ler_troca _ _ _ _ (by omega) (by omega)]
      split_ifs with h1 h2
      · obtain ⟨k', hk', e⟩ := ih m (by omega) (by omega)
        exact ⟨k', by omega, e⟩
      · exact ⟨m + 1, by omega, hac⟩
      · obtain ⟨k', hk', e⟩ := ih k (by omega) (by omega)
        exact ⟨k', by omega, e⟩
    · by_cases h1 : k = m + 1
      · subst h1; exact ⟨m + 1, by omega, hac⟩
      · obtain ⟨k', hk', e⟩ := ih k (by omega) (by omega)
        exact ⟨k', by omega, e⟩

/-- On slots already in ascending order of name the inner loop changes nothing. -/
theorem bubbleLaco_ordenado (s : Estado) (m : Nat)
    (h : ∀ k, k < m → strcmp (ler s.torre k).nome (ler s.torre (k + 1)).nome ≤ 0) :
    ((List.range m).foldl bubblePasso s).torre = s.torre := by
  induction m with
  | zero => rfl
  | succ m ih =>
    have e := ih (fun k hk => h k (by omega))
    rw [bubbleLaco_succ, bubblePasso_torre, e]
    have := h m (by omega)
    rw [if_neg (by omega)]

/-! ## bubbleSort: the outer loop -/

theorem bubbleExt_succ (s : Estado) (i : Nat) :
    (List.range (i + 1)).foldl bubbleInterno s =
      bubbleInterno ((List.range i).foldl bubbleInterno s) i := by
  rw [List.range_succ, List.foldl_append]
  rfl

theorem bubbleExt_total (s : Estado) (i : Nat) :
    ((List.range i).foldl bubbleInterno s).totalComponentes = s.totalComponentes := by
  induction i with
  | zero => rfl
  | succ i ih => rw [bubbleExt_succ, bubbleInterno, bubbleLaco_total, ih]

theorem bubbleExt_length (s : Estado) (i : Nat) :
    ((List.range i).foldl bubbleInterno s).torre.length = s.torre.length := by
  induction i with
  | zero => rfl
  | succ i ih => rw [bubbleExt_succ, bubbleInterno, bubbleLaco_length, ih]

theorem bubbleExt_comparacoes (s : Estado) (i : Nat) (hi : i ≤ s.totalComponentes) :
    2 * ((List.range i).foldl bubbleInterno s).comparacoes + i * i + i =
      2 * s.comparacoes + 2 * i * s.totalComponentes := by
  induction i with
  | zero => simp
  | succ i ih =>
    have h1 := ih (by omega)
    rw [bubbleExt_succ, bubbleInterno, bubbleLaco_comparacoes, bubbleExt_total]
    obtain ⟨d, hd⟩ : ∃ d, s.totalComponentes = d + i + 1 := ⟨s.totalComponentes - i - 1, by omega⟩
    rw [hd] at h1 ⊢
    have : d + i + 1 - i - 1 = d := by omega
    rw [this]
    ring_nf at h1 ⊢
    omega

theorem bubbleExt_perm (s : Estado) (i : Nat) (h : s.totalComponentes ≤ s.torre.length) :
    ((List.range i).foldl bubbleInterno s).torre.Perm s.torre := by
  induction i with
  | zero => exact List.Perm.refl _
  | succ i ih =>
    have hl := bubbleExt_length s i
    have ht := bubbleExt_total s i
    rw [bubbleExt_succ, bubbleInterno]
    rcases Nat.eq_zero_or_pos (s.totalComponentes - i - 1) with h0 | h0
    · rw [ht, h0]; exact ih
    · exact (bubbleLaco_perm _ _ (by omega)).trans ih

/-- Slots at index `totalComponentes` and above are not touched. -/
theorem bubbleExt_fora (s : Estado) (i k : Nat) (h : s.totalComponentes ≤ s.torre.length)
    (hk : s.totalComponentes ≤ k) :
    ler ((List.range i).foldl bubbleInterno s).torre k = ler s.torre k := by
  induction i with
  | zero => rfl
  | succ i ih =>
    have hl := bubbleExt_length s i
    have ht := bubbleExt_total s i
    rw [bubbleExt_succ, bubbleInterno]
    rcases Nat.eq_zero_or_pos (s.totalComponentes - i - 1) with h0 | h0
    · rw [ht, h0]; exact ih
    · rw [bubbleLaco_acima _ _ _ (by omega) (by omega)]; exact ih

/-- Invariant of the outer loop: after `i` passes the last `i` slots are in ascending
order of name and every earlier slot is below each of them. -/
theorem bubbleExt_inv (s : Estado) (i : Nat) (h : s.totalComponentes ≤ s.torre.length)
    (hi : i ≤ s.totalComponentes - 1) :
    (∀ k, s.totalComponentes - i ≤ k → k + 1 < s.totalComponentes →
      strcmp (ler ((List.range i).foldl bubbleInterno s).torre k).nome
        (ler ((List.range i).foldl bubbleInterno s).torre (k + 1)).nome ≤ 0) ∧
    (∀ k k', k < s.totalComponentes - i → s.totalComponentes - i ≤ k' →
      k' < s.totalComponentes →
      strcmp (ler ((List.range i).foldl bubbleInterno s).torre k).nome
        (ler ((List.range i).foldl bubbleInterno s).torre k').nome ≤ 0) := by
  induction i with
  | zero =>
    constructor
    · intro k h1 h2; omega
    · intro k k' h1 h2 h3; omega
  | succ i ih =>
    obtain ⟨ih1, ih2⟩ := ih (by omega)
    have hl := bubbleExt_length s i
    have ht := bubbleExt_total s i
    rw [bubbleExt_succ, bubbleInterno, ht]
    generalize (List.range i).foldl bubbleInterno s = u at ih1 ih2 hl ht
    have hm : s.totalComponentes - i - 1 < u.torre.length := by omega
    constructor
    · intro k h1 h2
      rw [bubbleLaco_acima u _ (k + 1) hm (by omega)]
      by_cases hk : k = s.totalComponentes - i - 1
      · obtain ⟨k', hk', e⟩ := bubbleLaco_origem u _ k hm (by omega)
        rw [e]
        exact ih2 k' (k + 1) (by omega) (by omega) h2
      · rw [bubbleLaco_acima u _ k hm (by omega)]
        exact ih1 k (by omega) h2
    · intro k k' h1 h2 h3
      by_cases hk : k' = s.totalComponentes - i - 1
      · rw [hk]
        exact bubbleLaco_maior u _ k hm (by omega)
      · obtain ⟨k'', hk'', e⟩ := bubbleLaco_origem u _ k hm (by omega)
        rw [e, bubbleLaco_acima u _ k' hm (by omega)]
        exact ih2 k'' k' (by omega) (by omega) h3

/-- On a tower already in ascending order of name the outer loop changes nothing. -/
theorem bubbleExt_ordenado (s : Estado) (i : Nat)
    (h : ∀ k, k + 1 < s.totalComponentes →
      strcmp (ler s.torre k).nome (ler s.torre (k + 1)).nome ≤ 0) :
    ((List.range i).foldl bubbleInterno s).torre = s.torre := by
  induction i with
  | zero => rfl
  | succ i ih =>
    have ht := bubbleExt_total s i
    rw [bubbleExt_succ, bubbleInterno, bubbleLaco_ordenado, ih]
    intro k hk
    rw [ih]
    exact h k (by omega)

theorem take_perm_of_perm (t u : List Componente) (n : Nat) (hp : t.Perm u)
    (hd : t.drop n = u.drop n) : (t.take n).Perm (u.take n) := by
  have h1 : (t.take n ++ t.drop n).Perm (u.take n ++ t.drop n) := by
    rw [List.take_append_drop, hd, List.take_append_drop]
    exact hp
  exact (List.perm_append_right_iff _).1 h1

theorem drop_eq_of_ler (t u : List Componente) (n : Nat) (hl : t.length = u.length)
    (h : ∀ k, n ≤ k → ler t k = ler u k) : t.drop n = u.drop n := by
  apply List.ext_getElem (by simp [hl])
  intro k h1 h2
  have := h (n + k) (by omega)
  simp only [List.length_drop] at h1 h2
  rw [ler_eq_getElem _ _ (by omega), ler_eq_getElem _ _ (by omega)] at this
  simpa using this

theorem estado_ext (s u : Estado) (h1 : s.torre = u.torre)
    (h2 : s.totalComponentes = u.totalComponentes) (h3 : s.comparacoes = u.comparacoes) :
    s = u := by
  cases s; cases u; simp_all

theorem bubbleSort_total (s : Estado) :
    (bubbleSort s).totalComponentes = s.totalComponentes :=
  bubbleExt_total _ _

theorem bubbleSort_conta (s : Estado) :
    (bubbleSort s).comparacoes = s.totalComponentes * (s.totalComponentes - 1) / 2 := by
  have h := bubbleExt_comparacoes { s with comparacoes := 0 } (s.totalComponentes - 1)
    (Nat.sub_le _ _)
  unfold bubbleSort
  generalize ((List.range (s.totalComponentes - 1)).foldl bubbleInterno
    { s with comparacoes := 0 }).comparacoes = c at h
  simp only at h
  rcases Nat.eq_zero_or_pos s.totalComponentes with h0 | h0
  · rw [h0] at h ⊢
    simp at h ⊢
    exact h
  · obtain ⟨d, hd⟩ : ∃ d, s.totalComponentes = d + 1 := ⟨s.totalComponentes - 1, by omega⟩
    rw [hd] at h ⊢
    simp only [Nat.add_sub_cancel] at h ⊢
    ring_nf at h ⊢
    omega

theorem bubbleSort_ordena (s : Estado) (h : s.totalComponentes ≤ s.torre.length) (i : Nat)
    (hi : i + 1 < s.totalComponentes) :
    strcmp (ler (bubbleSort s).torre i).nome (ler (bubbleSort s).torre (i + 1)).nome ≤ 0 := by
  obtain ⟨h1, h2⟩ := bubbleExt_inv { s with comparacoes := 0 } (s.totalComponentes - 1) h
    (le_refl _)
  by_cases h0 : i = 0
  · subst h0
    exact h2 0 1 (by simp; omega) (by simp; omega) hi
  · exact h1 i (by simp; omega) hi

/-! ## insertionSort: the while loop -/

theorem ler_meio (P R : List Componente) (x : Componente) : ler (P ++ x :: R) P.length = x := by
  rw [ler_append_right _ _ _ (le_refl _)]
  simp [ler]

theorem set_meio (P R : List Componente) (x v : Componente) :
    (P ++ x :: R).set P.length v = P ++ v :: R := by
  rw [List.set_append_right _ _ (le_refl _)]
  simp

/-- The while loop started at `j = |P| - 1` on the array `P ++ x :: R`, followed by the
store of `chave` at `j + 1`: the prefix `P` splits as `A ++ B`, where `B` is the run of
records strictly above `chave` that were shifted and `A` is empty or ends with a record
not above `chave`; the array becomes `A ++ chave :: B ++ R`, and the loop counts one
comparison per record of `B` plus the terminating one when `A` is not empty. -/
theorem insertionLaco_spec (chave : Componente) (P : List Componente) :
    ∀ (x : Componente) (R : List Componente) (c : Nat),
    ∃ A B, P = A ++ B ∧ (∀ b ∈ B, strcmp b.tipo chave.tipo > 0) ∧
      (A = [] ∨ ∃ A' z, A = A' ++ [z] ∧ strcmp z.tipo chave.tipo ≤ 0) ∧
      (insertionLaco chave P.length (P ++ x :: R) c).1.set
        (insertionLaco chave P.length (P ++ x :: R) c).2.2 chave = A ++ chave :: B ++ R ∧
      (insertionLaco chave P.length (P ++ x :: R) c).2.1 =
        c + B.length + (if A = [] then 0 else 1) := by
  induction P using List.reverseRecOn with
  | nil =>
    intro x R c
    refine ⟨[], [], rfl, by simp, Or.inl rfl, ?_, ?_⟩
    · simp [insertionLaco]
    · simp [insertionLaco]
  | append_singleton P y ih =>
    intro x R c
    have hlen : (P ++ [y]).length = P.length + 1 := by simp
    have hy : ler (P ++ [y] ++ x :: R) P.length = y := by
      rw [List.append_assoc]; exact ler_meio P _ y
    rw [hlen]
    by_cases hgt : strcmp y.tipo chave.tipo > 0
    · have hset : (P ++ [y] ++ x :: R).set (P.length + 1) y = P ++ y :: y :: R := by
        have := set_meio (P ++ [y]) R x y
        rw [hlen] at this
        rw [this]; simp
      have hun : insertionLaco chave (P.length + 1) (P ++ [y] ++ x :: R) c =
          insertionLaco chave P.length (P ++ y :: y :: R) (c + 1) := by
        rw [insertionLaco, hy, if_pos hgt, hset]
      rw [hun]
      obtain ⟨A, B, hP, hB, hA, ht, hc⟩ := ih y (y :: R) (c + 1)
      refine ⟨A, B ++ [y], by rw [hP, List.append_assoc], ?_, hA, ?_, ?_⟩
      · intro b hb
        rcases List.mem_append.1 hb with hb | hb
        · exact hB b hb
        · rw [List.mem_singleton.1 hb]; exact hgt
      · rw [ht]; simp
      · rw [hc]; simp; omega
    · have hun : insertionLaco chave (P.length + 1) (P ++ [y] ++ x :: R) c =
          (P ++ [y] ++ x :: R, c + 1, P.length + 1) := by
        rw [insertionLaco, hy, if_neg hgt]
      rw [hun]
      refine ⟨P ++ [y], [], by simp, by simp, Or.inr ⟨P, y, rfl, by omega⟩, ?_, ?_⟩
      · have := set_meio (P ++ [y]) R x chave
        rw [hlen] at this
        simp only [this]; simp
      · simp

theorem insertionPasso_total (s : Estado) (i : Nat) :
    (insertionPasso s i).totalComponentes = s.totalComponentes := rfl

/-- One iteration of the outer loop of `insertionSort` at `i = |P|` on the array
`P ++ x :: R`. -/
theorem insertionPasso_spec (s : Estado) (i : Nat) (P R : List Componente) (x : Componente)
    (ht : s.torre = P ++ x :: R) (hi : P.length = i) :
    ∃ A B, P = A ++ B ∧ (∀ b ∈ B, strcmp b.tipo x.tipo > 0) ∧
      (A = [] ∨ ∃ A' z, A = A' ++ [z] ∧ strcmp z.tipo x.tipo ≤ 0) ∧
      (insertionPasso s i).torre = A ++ x :: B ++ R ∧
      (insertionPasso s i).comparacoes =
        s.comparacoes + B.length + (if A = [] then 0 else 1) := by
  have hx : ler (P ++ x :: R) P.length = x := ler_meio P R x
  obtain ⟨A, B, hP, hB, hA, h1, h2⟩ := insertionLaco_spec x P x R s.comparacoes
  refine ⟨A, B, hP, hB, hA, ?_, ?_⟩
  · unfold insertionPasso
    simp only [ht, ← hi, hx]
    exact h1
  · unfold insertionPasso
    simp only [ht, ← hi, hx]
    exact h2

/-! ## insertionSort: the outer loop -/

/-- Inserting `x` between `A` and `B` as the while loop does keeps the records, the
ascending order of category and the relative order of records of equal category. -/
theorem inserir_props (A B : List Componente) (x : Componente)
    (hB : ∀ b ∈ B, strcmp b.tipo x.tipo > 0)
    (hA : A = [] ∨ ∃ A' z, A = A' ++ [z] ∧ strcmp z.tipo x.tipo ≤ 0)
    (hs : (A ++ B).Pairwise (fun a b => strcmp a.tipo b.tipo ≤ 0)) :
    (A ++ x :: B).Perm (A ++ B ++ [x]) ∧
    (A ++ x :: B).Pairwise (fun a b => strcmp a.tipo b.tipo ≤ 0) ∧
    ∀ c : List Nat, (A ++ x :: B).filter (fun r => decide (r.tipo = c)) =
      (A ++ B ++ [x]).filter (fun r => decide (r.tipo = c)) := by
  refine ⟨?_, ?_, ?_⟩
  · exact List.perm_middle.trans (List.perm_append_singleton x (A ++ B)).symm
  · obtain ⟨hpa, hpb, hab⟩ := List.pairwise_append.1 hs
    rw [List.pairwise_append]
    refine ⟨hpa, ?_, ?_⟩
    · rw [List.pairwise_cons]
      refine ⟨?_, hpb⟩
      intro b hb
      have := hB b hb
      rw [strcmp_antisymm]; omega
    · intro a ha b hb
      have hax : strcmp a.tipo x.tipo ≤ 0 := by
        rcases hA with hA | ⟨A', z, hA, hz⟩
        · rw [hA] at ha; simp at ha
        · rw [hA] at ha hpa
          rcases List.mem_append.1 ha with ha | ha
          · have := (List.pairwise_append.1 hpa).2.2 a ha z (by simp)
            exact strcmp_le_trans _ _ _ this hz
          · rw [List.mem_singleton.1 ha]; exact hz
      rcases List.mem_cons.1 hb with hb | hb
      · rw [hb]; exact hax
      · exact hab a ha b hb
  · intro c
    simp only [List.filter_append, List.filter_cons, List.filter_nil, List.append_assoc]
    by_cases hx : x.tipo = c
    · have hBf : B.filter (fun r => decide (r.tipo = c)) = [] := by
        rw [List.filter_eq_nil_iff]
        intro b hb
        have := hB b hb
        simp only [decide_eq_true_eq]
        intro hbc
        rw [hbc, hx, strcmp_self] at this
        omega
      simp [hx, hBf]
    · simp [hx]

theorem insExt_succ (s : Estado) (m : Nat) :
    (List.range' 1 (m + 1)).foldl insertionPasso s =
      insertionPasso ((List.range' 1 m).foldl insertionPasso s) (m + 1) := by
  rw [List.range'_concat, List.foldl_append]
  simp [Nat.add_comm]

theorem insExt_total (s : Estado) (m : Nat) :
    ((List.range' 1 m).foldl insertionPasso s).totalComponentes = s.totalComponentes := by
  induction m with
  | zero => rfl
  | succ m ih => rw [insExt_succ, insertionPasso_total, ih]

theorem take_succ_of_lt (t : List Componente) (m : Nat) (h : m < t.length) :
    t.take (m + 1) = t.take m ++ [t[m]] := by
  rw [List.take_succ, List.getElem?_eq_getElem h]
  rfl

/-- Invariant of the outer loop of `insertionSort`: after the iterations `i = 1..m` the
array is `S ++ drop (m + 1) torre`, where `S` holds the first `m + 1` records in ascending
order of category, records of equal category in their original relative order. -/
theorem insExt_inv (s : Estado) (m : Nat) (hm : m < s.torre.length) :
    ∃ S, ((List.range' 1 m).foldl insertionPasso s).torre = S ++ s.torre.drop (m + 1) ∧
      S.Perm (s.torre.take (m + 1)) ∧
      S.Pairwise (fun a b => strcmp a.tipo b.tipo ≤ 0) ∧
      ∀ c : List Nat, S.filter (fun r => decide (r.tipo = c)) =
        (s.torre.take (m + 1)).filter (fun r => decide (r.tipo = c)) := by
  induction m with
  | zero =>
    refine ⟨s.torre.take 1, (List.take_append_drop 1 s.torre).symm, List.Perm.refl _, ?_,
      fun _ => rfl⟩
    rw [take_succ_of_lt _ 0 hm]
    simp
  | succ m ih =>
    obtain ⟨S, hT, hperm, hsort, hstab⟩ := ih (by omega)
    have hlen : S.length = m + 1 := by
      rw [hperm.length_eq, List.length_take]; omega
    rw [List.drop_eq_getElem_cons hm] at hT
    obtain ⟨A, B, hS, hB, hA, ht, _⟩ := insertionPasso_spec _ (m + 1) S _ _ hT hlen
    rw [hS] at hsort
    obtain ⟨p1, p2, p3⟩ := inserir_props A B _ hB hA hsort
    rw [insExt_succ, ht, take_succ_of_lt _ (m + 1) hm]
    refine ⟨A ++ s.torre[m + 1] :: B, by simp, ?_, p2, ?_⟩
    · rw [← hS] at p1
      exact p1.trans (hperm.append_right _)
    · intro c
      rw [p3 c, ← hS, List.filter_append, hstab c, List.filter_append]

theorem insExt_length (s : Estado) (m : Nat) (hm : m < s.torre.length) :
    ((List.range' 1 m).foldl insertionPasso s).torre.length = s.torre.length := by
  obtain ⟨S, hT, hperm, _, _⟩ := insExt_inv s m hm
  rw [hT, List.length_append, hperm.length_eq, ← List.length_append, List.take_append_drop]

/-- Summary of `insertionSort` with `n = totalComponentes` at most the array length: the
first `n` slots hold `S`, the slots from `n` on are as before. -/
theorem insertionSort_inv (s : Estado) (h : s.totalComponentes ≤ s.torre.length) :
    ∃ S, (insertionSort s).torre = S ++ s.torre.drop s.totalComponentes ∧
      S.length = s.totalComponentes ∧
      S.Perm (s.torre.take s.totalComponentes) ∧
      S.Pairwise (fun a b => strcmp a.tipo b.tipo ≤ 0) ∧
      ∀ c : List Nat, S.filter (fun r => decide (r.tipo = c)) =
        (s.torre.take s.totalComponentes).filter (fun r => decide (r.tipo = c)) := by
  rcases Nat.eq_zero_or_pos s.totalComponentes with h0 | h0
  · refine ⟨[], ?_, by simp [h0], ?_, List.Pairwise.nil, ?_⟩
    · simp [insertionSort, h0]
    · simp [h0]
    · simp [h0]
  · obtain ⟨S, hT, hperm, hsort, hstab⟩ :=
      insExt_inv { s with comparacoes := 0 } (s.totalComponentes - 1) (by simp; omega)
    have e : s.totalComponentes - 1 + 1 = s.totalComponentes := by omega
    simp only [e] at hT hperm hstab
    refine ⟨S, hT, ?_, hperm, hsort, hstab⟩
    rw [hperm.length_eq, List.length_take]; omega

/-! ## insertionSort: comparison counts on sorted and reverse-sorted input -/

/-- On an array whose first `m + 1` slots are in ascending order of category the
iterations `i = 1..m` leave the array as it is and count one comparison each. -/
theorem insExt_ordenado (s : Estado) (m : Nat) (hm : m < s.torre.length)
    (hs : ∀ k, k < m → strcmp (ler s.torre k).tipo (ler s.torre (k + 1)).tipo ≤ 0) :
    ((List.range' 1 m).foldl insertionPasso s).torre = s.torre ∧
    ((List.range' 1 m).foldl insertionPasso s).comparacoes = s.comparacoes + m := by
  induction m with
  | zero => exact ⟨rfl, rfl⟩
  | succ m ih =>
    obtain ⟨iht, ihc⟩ := ih (by omega) (fun k hk => hs k (by omega))
    have hdec : s.torre = s.torre.take (m + 1) ++ s.torre[m + 1] :: s.torre.drop (m + 2) := by
      rw [← List.drop_eq_getElem_cons hm, List.take_append_drop]
    have hlen : (s.torre.take (m + 1)).length = m + 1 := by
      rw [List.length_take]; omega
    obtain ⟨A, B, hP, hB, hA, ht, hc⟩ :=
      insertionPasso_spec ((List.range' 1 m).foldl insertionPasso s) (m + 1) _ _ _
        (iht.trans hdec) hlen
    have hz := hs m (by omega)
    rw [ler_eq_getElem _ _ (by omega), ler_eq_getElem _ _ hm] at hz
    have hBnil : B = [] := by
      rcases List.eq_nil_or_concat B with hb | ⟨B', w, hb⟩
      · exact hb
      · exfalso
        rw [List.concat_eq_append] at hb
        have e1 : s.torre.take m ++ [s.torre[m]] = (A ++ B') ++ [w] := by
          rw [← take_succ_of_lt _ m (by omega), hP, hb, List.append_assoc]
        have hw : s.torre[m] = w := List.head_eq_of_cons_eq (List.append_inj' e1 rfl).2
        have hgt := hB w (by rw [hb]; exact List.mem_append_right _ (List.mem_singleton_self w))
        rw [← hw] at hgt
        omega
    rw [hBnil] at hP ht hc
    have hAne : A ≠ [] := by
      intro hA0
      rw [hA0] at hP
      rw [hP] at hlen
      simp at hlen
    rw [insExt_succ]
    constructor
    · rw [List.append_nil] at hP
      rw [ht, ← hP]
      exact Eq.trans (by simp) hdec.symm
    · rw [hc, ihc, if_neg hAne]
      simp
      omega

/-- A strictly descending chain of categories is strictly descending between any two
slots. -/
theorem desc_todos (t : List Componente) (n : Nat)
    (hr : ∀ k, k + 1 < n → strcmp (ler t k).tipo (ler t (k + 1)).tipo > 0) :
    ∀ k' k, k < k' → k' < n → strcmp (ler t k).tipo (ler t k').tipo > 0 := by
  intro k'
  induction k' with
  | zero => intro k h; omega
  | succ k' ih =>
    intro k h1 h2
    by_cases hk : k = k'
    · subst hk; exact hr k h2
    · exact strcmp_gt_trans _ _ _ (ih k (by omega) (by omega)) (hr k' h2)

/-- On an array whose first `m + 1` slots are in strictly descending order of category the
iterations `i = 1..m` reverse those slots, iteration `i` counting `i` comparisons. -/
theorem insExt_reverso (s : Estado) (m : Nat) (hm : m < s.torre.length)
    (hr : ∀ k, k + 1 < m + 1 → strcmp (ler s.torre k).tipo (ler s.torre (k + 1)).tipo > 0) :
    ((List.range' 1 m).foldl insertionPasso s).torre =
      (s.torre.take (m + 1)).reverse ++ s.torre.drop (m + 1) ∧
    2 * ((List.range' 1 m).foldl insertionPasso s).comparacoes =
      2 * s.comparacoes + m * (m + 1) := by
  induction m with
  | zero =>
    refine ⟨?_, by simp⟩
    have e : (s.torre.take (0 + 1)).reverse = s.torre.take (0 + 1) := by
      rw [take_succ_of_lt _ 0 hm]; rfl
    rw [e]
    exact (List.take_append_drop 1 s.torre).symm
  | succ m ih =>
    obtain ⟨iht, ihc⟩ := ih (by omega) (fun k hk => hr k (by omega))
    rw [List.drop_eq_getElem_cons hm] at iht
    have hlen : (s.torre.take (m + 1)).reverse.length = m + 1 := by
      rw [List.length_reverse, List.length_take]; omega
    obtain ⟨A, B, hP, hB, hA, ht, hc⟩ :=
      insertionPasso_spec ((List.range' 1 m).foldl insertionPasso s) (m + 1) _ _ _ iht hlen
    have hall : ∀ p ∈ (s.torre.take (m + 1)).reverse,
        strcmp p.tipo (s.torre[m + 1]).tipo > 0 := by
      intro p hp
      rw [List.mem_reverse, List.mem_iff_getElem] at hp
      obtain ⟨k, hk, e⟩ := hp
      rw [List.getElem_take] at e
      rw [List.length_take] at hk
      have := desc_todos s.torre (m + 2) hr (m + 1) k (by omega) (by omega)
      rw [ler_eq_getElem _ _ (by omega), ler_eq_getElem _ _ hm, e] at this
      exact this
    have hAnil : A = [] := by
      rcases hA with hA | ⟨A', z, hA, hz⟩
      · exact hA
      · exfalso
        have := hall z (by rw [hP, hA]; simp)
        omega
    subst hAnil
    rw [List.nil_append] at hP
    rw [insExt_succ]
    constructor
    · rw [ht, ← hP, take_succ_of_lt _ (m + 1) hm, List.reverse_concat]
      simp
    · rw [hc, ← hP, hlen]
      simp only [if_true]
      ring_nf at ihc ⊢
      omega

theorem insertionSort_conta_ordenado (s : Estado) (h : s.totalComponentes ≤ s.torre.length)
    (hs : ∀ k, k + 1 < s.totalComponentes →
      strcmp (ler s.torre k).tipo (ler s.torre (k + 1)).tipo ≤ 0) :
    (insertionSort s).comparacoes = s.totalComponentes - 1 := by
  rcases Nat.eq_zero_or_pos s.totalComponentes with h0 | h0
  · simp [insertionSort, h0]
  · have := (insExt_ordenado { s with comparacoes := 0 } (s.totalComponentes - 1)
      (by simp; omega) (fun k hk => hs k (by omega))).2
    simpa [insertionSort] using this

theorem insertionSort_conta_reverso (s : Estado) (h : s.totalComponentes ≤ s.torre.length)
    (hr : ∀ k, k + 1 < s.totalComponentes →
      strcmp (ler s.torre k).tipo (ler s.torre (k + 1)).tipo > 0) :
    (insertionSort s).comparacoes = s.totalComponentes * (s.totalComponentes - 1) / 2 := by
  rcases Nat.eq_zero_or_pos s.totalComponentes with h0 | h0
  · simp [insertionSort, h0]
  · have h2 := (insExt_reverso { s with comparacoes := 0 } (s.totalComponentes - 1)
      (by simp; omega) (fun k hk => hr k (by omega))).2
    unfold insertionSort
    generalize ((List.range' 1 (s.totalComponentes - 1)).foldl insertionPasso
      { s with comparacoes := 0 }).comparacoes = c at h2
    obtain ⟨d, hd⟩ : ∃ d, s.totalComponentes = d + 1 := ⟨s.totalComponentes - 1, by omega⟩
    rw [hd] at h2 ⊢
    simp only [Nat.add_sub_cancel] at h2 ⊢
    ring_nf at h2 ⊢
    omega

/-! ## selectionSort -/

theorem selScan_succ (t : List Componente) (a : Nat × Nat) (i m : Nat) :
    (List.range' (i + 1) (m + 1)).foldl (selectionExame t) a =
      selectionExame t ((List.range' (i + 1) m).foldl (selectionExame t) a) (i + 1 + m) := by
  rw [List.range'_concat, List.foldl_append]
  simp

/-- The scan of the inner loop of `selectionSort` over the slots `i + 1 .. i + m`: it
counts `m` comparisons and ends with `maxIdx` in `i .. i + m` at a slot of greatest
priority among them. -/
theorem selScan_spec (t : List Componente) (i c m : Nat) :
    ((List.range' (i + 1) m).foldl (selectionExame t) (i, c)).2 = c + m ∧
    i ≤ ((List.range' (i + 1) m).foldl (selectionExame t) (i, c)).1 ∧
    ((List.range' (i + 1) m).foldl (selectionExame t) (i, c)).1 ≤ i + m ∧
    ∀ k, i ≤ k → k ≤ i + m → (ler t k).prioridade ≤
      (ler t ((List.range' (i + 1) m).foldl (selectionExame t) (i, c)).1).prioridade := by
  induction m with
  | zero =>
    refine ⟨rfl, le_refl _, le_refl _, ?_⟩
    intro k h1 h2
    have : k = i := by omega
    subst this
    exact le_refl _
  | succ m ih =>
    obtain ⟨h1, h2, h3, h4⟩ := ih
    rw [selScan_succ]
    generalize (List.range' (i + 1) m).foldl (selectionExame t) (i, c) = r at h1 h2 h3 h4
    unfold selectionExame
    dsimp only
    refine ⟨by omega, ?_, ?_, ?_⟩
    · split_ifs <;> omega
    · split_ifs <;> omega
    · intro k hk1 hk2
      by_cases hk : k = i + 1 + m
      · subst hk
        split_ifs with h
        · exact le_refl _
        · omega
      · have := h4 k hk1 (by omega)
        split_ifs with h
        · omega
        · exact this

theorem selectionPasso_total (s : Estado) (i : Nat) :
    (selectionPasso s i).totalComponentes = s.totalComponentes := by
  unfold selectionPasso
  dsimp only
  split_ifs <;> rfl

theorem selectionPasso_comparacoes (s : Estado) (i : Nat) :
    (selectionPasso s i).comparacoes = s.comparacoes + (s.totalComponentes - (i + 1)) := by
  have := (selScan_spec s.torre i s.comparacoes (s.totalComponentes - (i + 1))).1
  unfold selectionPasso
  dsimp only
  split_ifs <;> exact this

theorem selectionPasso_torre (s : Estado) (i : Nat) :
    (selectionPasso s i).torre = troca s.torre i
      ((List.range' (i + 1) (s.totalComponentes - (i + 1))).foldl
        (selectionExame s.torre) (i, s.comparacoes)).1 := by
  unfold selectionPasso
  dsimp only
  split_ifs with h
  · rfl
  · rw [not_not.1 h]
    unfold troca
    rw [set_ler_self, set_ler_self]

theorem selExt_succ (s : Estado) (i : Nat) :
    (List.range (i + 1)).foldl selectionPasso s =
      selectionPasso ((List.range i).foldl selectionPasso s) i := by
  rw [List.range_succ, List.foldl_append]
  rfl

theorem selExt_total (s : Estado) (i : Nat) :
    ((List.range i).foldl selectionPasso s).totalComponentes = s.totalComponentes := by
  induction i with
  | zero => rfl
  | succ i ih => rw [selExt_succ, selectionPasso_total, ih]

theorem selExt_length (s : Estado) (i : Nat) :
    ((List.range i).foldl selectionPasso s).torre.length = s.torre.length := by
  induction i with
  | zero => rfl
  | succ i ih => rw [selExt_succ, selectionPasso_torre, troca_length, ih]

theorem selExt_comparacoes (s : Estado) (i : Nat) (hi : i ≤ s.totalComponentes) :
    2 * ((List.range i).foldl selectionPasso s).comparacoes + i * i + i =
      2 * s.comparacoes + 2 * i * s.totalComponentes := by
  induction i with
  | zero => simp
  | succ i ih =>
    have h1 := ih (by omega)
    rw [selExt_succ, selectionPasso_comparacoes, selExt_total]
    obtain ⟨d, hd⟩ : ∃ d, s.totalComponentes = d + i + 1 := ⟨s.totalComponentes - i - 1, by omega⟩
    rw [hd] at h1 ⊢
    have : d + i + 1 - (i + 1) = d := by omega
    rw [this]
    ring_nf at h1 ⊢
    omega

theorem selExt_perm (s : Estado) (i : Nat) (h : s.totalComponentes ≤ s.torre.length)
    (hi : i ≤ s.totalComponentes) :
    ((List.range i).foldl selectionPasso s).torre.Perm s.torre := by
  induction i with
  | zero => exact List.Perm.refl _
  | succ i ih =>
    have hl := selExt_length s i
    have ht := selExt_total s i
    rw [selExt_succ, selectionPasso_torre]
    have h3 := (selScan_spec ((List.range i).foldl selectionPasso s).torre i
      ((List.range i).foldl selectionPasso s).comparacoes
      (((List.range i).foldl selectionPasso s).totalComponentes - (i + 1))).2.2.1
    exact (troca_perm _ _ _ (by omega) (by omega)).trans (ih (by omega))

/-- Slots at index `totalComponentes` and above are not touched. -/
theorem selExt_fora (s : Estado) (i k : Nat) (h : s.totalComponentes ≤ s.torre.length)
    (hi : i ≤ s.totalComponentes) (hk : s.totalComponentes ≤ k) :
    ler ((List.range i).foldl selectionPasso s).torre k = ler s.torre k := by
  induction i with
  | zero => rfl
  | succ i ih =>
    have hl := selExt_length s i
    have ht := selExt_total s i
    rw [selExt_succ, selectionPasso_torre]
    have h3 := (selScan_spec ((List.range i).foldl selectionPasso s).torre i
      ((List.range i).foldl selectionPasso s).comparacoes
      (((List.range i).foldl selectionPasso s).totalComponentes - (i + 1))).2.2.1
    rw [ler_troca _ _ _ _ (by omega) (by omega), if_neg (by omega), if_neg (by omega)]
    exact ih (by omega)

/-- Invariant of the outer loop of `selectionSort`: after `i` iterations each of the
first `i` slots has priority at least that of every later slot. -/
theorem selExt_inv (s : Estado) (i : Nat) (h : s.totalComponentes ≤ s.torre.length)
    (hi : i ≤ s.totalComponentes) :
    ∀ k k', k < i → k < k' → k' < s.totalComponentes →
      (ler ((List.range i).foldl selectionPasso s).torre k').prioridade ≤
        (ler ((List.range i).foldl selectionPasso s).torre k).prioridade := by
  induction i with
  | zero => intro k k' h1; omega
  | succ i ih =>
    have ih := ih (by omega)
    have hl := selExt_length s i
    have ht := selExt_total s i
    rw [selExt_succ, selectionPasso_torre]
    generalize (List.range i).foldl selectionPasso s = u at ih hl ht
    obtain ⟨_, h2, h3, h4⟩ := selScan_spec u.torre i u.comparacoes (u.totalComponentes - (i + 1))
    generalize ((List.range' (i + 1) (u.totalComponentes - (i + 1))).foldl
      (selectionExame u.torre) (i, u.comparacoes)).1 = mx at h2 h3 h4
    intro k k' hk hkk hk'
    have hmx : mx < s.totalComponentes := by omega
    rw [ler_troca _ _ _ _ (by omega) (by omega), ler_troca _ _ _ _ (by omega) (by omega)]
    by_cases hki : k = i
    · have e : (if k = mx then ler u.torre i else if k = i then ler u.torre mx
          else ler u.torre k) = ler u.torre mx := by
        by_cases h5 : k = mx
        · rw [if_pos h5, ← h5, hki]
        · rw [if_neg h5, if_pos hki]
      rw [e]
      by_cases h6 : k' = mx
      · rw [if_pos h6]
        exact h4 i (le_refl _) (by omega)
      · rw [if_neg h6, if_neg (show ¬ k' = i by omega)]
        exact h4 k' (by omega) (by omega)
    · rw [if_neg (show ¬ k = mx by omega), if_neg hki]
      by_cases h6 : k' = mx
      · rw [if_pos h6]
        exact ih k i (by omega) (by omega) (by omega)
      · rw [if_neg h6]
        by_cases h7 : k' = i
        · rw [if_pos h7]
          exact ih k mx (by omega) (by omega) hmx
        · rw [if_neg h7]
          exact ih k k' (by omega) hkk hk'

theorem selectionSort_conta (s : Estado) :
    (selectionSort s).comparacoes = s.totalComponentes * (s.totalComponentes - 1) / 2 := by
  have h := selExt_comparacoes { s with comparacoes := 0 } (s.totalComponentes - 1)
    (Nat.sub_le _ _)
  unfold selectionSort
  generalize ((List.range (s.totalComponentes - 1)).foldl selectionPasso
    { s with comparacoes := 0 }).comparacoes = c at h
  simp only at h
  rcases Nat.eq_zero_or_pos s.totalComponentes with h0 | h0
  · rw [h0] at h ⊢
    simp at h ⊢
    exact h
  · obtain ⟨d, hd⟩ : ∃ d, s.totalComponentes = d + 1 := ⟨s.totalComponentes - 1, by omega⟩
    rw [hd] at h ⊢
    simp only [Nat.add_sub_cancel] at h ⊢
    ring_nf at h ⊢
    omega

/-! ## buscaBinaria -/

/-- An ascending chain of names is ascending between any two slots. -/
theorem asc_todos (t : List Componente) (n : Nat)
    (hs : ∀ k, k + 1 < n → strcmp (ler t k).nome (ler t (k + 1)).nome ≤ 0) :
    ∀ k' k, k ≤ k' → k' < n → strcmp (ler t k).nome (ler t k').nome ≤ 0 := by
  intro k'
  induction k' with
  | zero =>
    intro k h _
    have : k = 0 := by omega
    subst this
    exact le_of_eq (strcmp_self _)
  | succ k' ih =>
    intro k h1 h2
    by_cases hk : k = k' + 1
    · subst hk; exact le_of_eq (strcmp_self _)
    · exact strcmp_le_trans _ _ _ (ih k (by omega) (by omega)) (hs k' h2)

theorem buscaLaco_sai (t : List Componente) (nomeBusca : List Nat) (fuel : Nat)
    (esquerda direita : Int) (c : Nat) (h : ¬ esquerda ≤ direita) :
    buscaLaco t nomeBusca fuel esquerda direita c = some (-1, c) := by
  unfold buscaLaco
  rw [if_neg h]

theorem buscaLaco_passo (t : List Componente) (nomeBusca : List Nat) (fuel : Nat)
    (esquerda direita : Int) (c : Nat) (h : esquerda ≤ direita) :
    buscaLaco t nomeBusca (fuel + 1) esquerda direita c =
      if strcmp (ler t (esquerda + (direita - esquerda) / 2).toNat).nome nomeBusca = 0 then
        some (esquerda + (direita - esquerda) / 2, c + 1)
      else if strcmp (ler t (esquerda + (direita - esquerda) / 2).toNat).nome nomeBusca < 0 then
        buscaLaco t nomeBusca fuel (esquerda + (direita - esquerda) / 2 + 1) direita (c + 1)
      else buscaLaco t nomeBusca fuel esquerda (esquerda + (direita - esquerda) / 2 - 1) (c + 1) := by
  rw [buscaLaco, if_pos h]
  dsimp only
  rw [Int.tdiv_eq_ediv (by omega) (by decide)]

/-- The loop of `buscaBinaria` on a tower in ascending order of name, started on a range
`[esquerda, direita]` inside `[0, n - 1]` that contains every slot holding the name, with
at least `direita - esquerda + 1` iterations allowed: it ends, either with `-1` when no
slot holds the name, or with a slot that holds it. -/
theorem buscaLaco_spec (t : List Componente) (n : Nat) (nomeBusca : List Nat)
    (hs : ∀ k k', k ≤ k' → k' < n → strcmp (ler t k).nome (ler t k').nome ≤ 0) :
    ∀ (fuel : Nat) (esquerda direita : Int) (c : Nat),
      0 ≤ esquerda → direita < n → direita - esquerda + 1 ≤ fuel →
      (∀ k : Nat, k < n → (ler t k).nome = nomeBusca → esquerda ≤ k ∧ (k : Int) ≤ direita) →
      ∃ r c', buscaLaco t nomeBusca fuel esquerda direita c = some (r, c') ∧
        ((r = -1 ∧ ∀ k : Nat, k < n → (ler t k).nome ≠ nomeBusca) ∨
         (0 ≤ r ∧ r < n ∧ (ler t r.toNat).nome = nomeBusca)) := by
  intro fuel
  induction fuel with
  | zero =>
    intro esquerda direita c h0 h1 h2 h3
    have hne : ¬ esquerda ≤ direita := by omega
    refine ⟨-1, c, buscaLaco_sai _ _ _ _ _ _ hne, Or.inl ⟨rfl, ?_⟩⟩
    intro k hk e
    have := h3 k hk e
    omega
  | succ fuel ih =>
    intro esquerda direita c h0 h1 h2 h3
    by_cases hle : esquerda ≤ direita
    · rw [buscaLaco_passo _ _ _ _ _ _ hle]
      have hm1 : esquerda ≤ esquerda + (direita - esquerda) / 2 := by omega
      have hm2 : esquerda + (direita - esquerda) / 2 ≤ direita := by omega
      generalize esquerda + (direita - esquerda) / 2 = meio at hm1 hm2
      have hmn : meio.toNat < n := by omega
      have hmt : (meio.toNat : Int) = meio := Int.toNat_of_nonneg (by omega)
      split_ifs with e1 e2
      · exact ⟨meio, c + 1, rfl, Or.inr ⟨by omega, by omega, strcmp_eq_zero _ _ e1⟩⟩
      · apply ih _ _ _ (by omega) h1 (by omega)
        intro k hk e
        have hk2 := h3 k hk e
        refine ⟨?_, hk2.2⟩
        by_contra hcon
        have := hs k meio.toNat (by omega) hmn
        rw [e, strcmp_antisymm] at this
        omega
      · apply ih _ _ _ h0 (by omega) (by omega)
        intro k hk e
        have hk2 := h3 k hk e
        refine ⟨hk2.1, ?_⟩
        by_contra hcon
        have := hs meio.toNat k (by omega) hk
        rw [e] at this
        omega
    · refine ⟨-1, c, buscaLaco_sai _ _ _ _ _ _ hle, Or.inl ⟨rfl, ?_⟩⟩
      intro k hk e
      have := h3 k hk e
      omega

/-- The function `buscaBinaria` on a non-empty tower in ascending order of name: it
returns, reporting a slot that holds the name when there is one and the not-found
message when there is none. -/
theorem buscaBinaria_spec (s : Estado) (nomeBusca : List Nat)
    (hn : 0 < s.totalComponentes)
    (hs : ∀ k, k + 1 < s.totalComponentes →
      strcmp (ler s.torre k).nome (ler s.torre (k + 1)).nome ≤ 0) :
    ∃ c, (buscaBinaria s nomeBusca = some ({ s with comparacoes := c }, Saida.naoEncontrado) ∧
        ∀ k, k < s.totalComponentes → (ler s.torre k).nome ≠ nomeBusca) ∨
      ∃ i : Nat, i < s.totalComponentes ∧ (ler s.torre i).nome = nomeBusca ∧
        buscaBinaria s nomeBusca = some ({ s with comparacoes := c }, Saida.encontrado i) := by
  obtain ⟨r, c', hr, hcase⟩ := buscaLaco_spec s.torre s.totalComponentes nomeBusca
    (fun k k' h1 h2 => asc_todos _ _ hs k' k h1 h2) s.totalComponentes 0
    ((s.totalComponentes : Int) - 1) 0 (le_refl _) (by omega) (by omega)
    (fun k hk _ => by omega)
  refine ⟨c', ?_⟩
  unfold buscaBinaria
  rw [if_neg (by omega), hr]
  dsimp only
  rcases hcase with ⟨h1, h2⟩ | ⟨h1, h2, h3⟩
  · left
    rw [h1]
    exact ⟨by simp, h2⟩
  · right
    refine ⟨r.toNat, by omega, h3, ?_⟩
    rw [if_pos (by omega), Int.toNat_of_nonneg h1]

/-! ## The sorts: order of the result -/

/-- C1: after `bubbleSort` on a tower of `n = totalComponentes` records (`n` at most the
array length, 20 in the program), every adjacent pair of the first `n` slots is in
ascending `strcmp` order of name: `strcmp(nome(i), nome(i+1)) <= 0` for `i + 1 < n`. -/
theorem bubbleSort_ordenado_por_nome (s : Estado) (h : s.totalComponentes ≤ s.torre.length)
    (i : Nat) (hi : i + 1 < s.totalComponentes) :
    strcmp (ler (bubbleSort s).torre i).nome (ler (bubbleSort s).torre (i + 1)).nome ≤ 0 :=
  bubbleSort_ordena s h i hi

theorem bubbleSort_ordenado_por_nome_witness :
    estadoTeste.totalComponentes ≤ estadoTeste.torre.length ∧
    3 + 1 < estadoTeste.totalComponentes ∧
    strcmp (ler (bubbleSort estadoTeste).torre 3).nome
      (ler (bubbleSort estadoTeste).torre (3 + 1)).nome ≤ 0 :=
  ⟨by decide, by decide, bubbleSort_ordenado_por_nome estadoTeste (by decide) 3 (by decide)⟩

/-- C2: after `insertionSort` on a tower of `n` records, every adjacent pair of the first
`n` slots is in ascending `strcmp` order of category. -/
theorem insertionSort_ordenado_por_tipo (s : Estado)
    (h : s.totalComponentes ≤ s.torre.length) (i : Nat) (hi : i + 1 < s.totalComponentes) :
    strcmp (ler (insertionSort s).torre i).tipo
      (ler (insertionSort s).torre (i + 1)).tipo ≤ 0 := by
  obtain ⟨S, hT, hlen, _, hsort, _⟩ := insertionSort_inv s h
  rw [hT, ler_append_left _ _ _ (by omega), ler_append_left _ _ _ (by omega),
    ler_eq_getElem _ _ (by omega), ler_eq_getElem _ _ (by omega)]
  exact List.pairwise_iff_getElem.1 hsort i (i + 1) (by omega) (by omega) (by omega)

theorem insertionSort_ordenado_por_tipo_witness :
    estadoTeste.totalComponentes ≤ estadoTeste.torre.length ∧
    2 + 1 < estadoTeste.totalComponentes ∧
    strcmp (ler (insertionSort estadoTeste).torre 2).tipo
      (ler (insertionSort estadoTeste).torre (2 + 1)).tipo ≤ 0 :=
  ⟨by decide, by decide, insertionSort_ordenado_por_tipo estadoTeste (by decide) 2 (by decide)⟩

/-- C3: after `selectionSort` on a tower of `n` records, every adjacent pair of the first
`n` slots is in descending order of priority: `prioridade(i) >= prioridade(i+1)`. -/
theorem selectionSort_ordenado_por_prioridade (s : Estado)
    (h : s.totalComponentes ≤ s.torre.length) (i : Nat) (hi : i + 1 < s.totalComponentes) :
    (ler (selectionSort s).torre i).prioridade ≥
      (ler (selectionSort s).torre (i + 1)).prioridade :=
  selExt_inv { s with comparacoes := 0 } (s.totalComponentes - 1) h (Nat.sub_le _ _)
    i (i + 1) (by show i < s.totalComponentes - 1; omega) (by omega) hi

theorem selectionSort_ordenado_por_prioridade_witness :
    estadoTeste.totalComponentes ≤ estadoTeste.torre.length ∧
    4 + 1 < estadoTeste.totalComponentes ∧
    (ler (selectionSort estadoTeste).torre 4).prioridade ≥
      (ler (selectionSort estadoTeste).torre (4 + 1)).prioridade :=
  ⟨by decide, by decide,
    selectionSort_ordenado_por_prioridade estadoTeste (by decide) 4 (by decide)⟩

/-! ## The sorts: in-place reordering -/

theorem bubbleSort_no_lugar (s : Estado) (h : s.totalComponentes ≤ s.torre.length) :
    (bubbleSort s).totalComponentes = s.totalComponentes ∧
    (bubbleSort s).torre.length = s.torre.length ∧
    ((bubbleSort s).torre.take s.totalComponentes).Perm (s.torre.take s.totalComponentes) ∧
    (bubbleSort s).torre.drop s.totalComponentes = s.torre.drop s.totalComponentes := by
  have hd := drop_eq_of_ler (bubbleSort s).torre s.torre s.totalComponentes
    (bubbleExt_length _ _) (fun k hk => bubbleExt_fora { s with comparacoes := 0 } _ k h hk)
  exact ⟨bubbleExt_total _ _, bubbleExt_length _ _,
    take_perm_of_perm _ _ _ (bubbleExt_perm { s with comparacoes := 0 } _ h) hd, hd⟩

theorem selectionSort_no_lugar (s : Estado) (h : s.totalComponentes ≤ s.torre.length) :
    (selectionSort s).totalComponentes = s.totalComponentes ∧
    (selectionSort s).torre.length = s.torre.length ∧
    ((selectionSort s).torre.take s.totalComponentes).Perm (s.torre.take s.totalComponentes) ∧
    (selectionSort s).torre.drop s.totalComponentes = s.torre.drop s.totalComponentes := by
  have hd := drop_eq_of_ler (selectionSort s).torre s.torre s.totalComponentes
    (selExt_length _ _)
    (fun k hk => selExt_fora { s with comparacoes := 0 } _ k h (Nat.sub_le _ _) hk)
  exact ⟨selExt_total _ _, selExt_length _ _,
    take_perm_of_perm _ _ _
      (selExt_perm { s with comparacoes := 0 } _ h (Nat.sub_le _ _)) hd, hd⟩

theorem insertionSort_no_lugar (s : Estado) (h : s.totalComponentes ≤ s.torre.length) :
    (insertionSort s).totalComponentes = s.totalComponentes ∧
    (insertionSort s).torre.length = s.torre.length ∧
    ((insertionSort s).torre.take s.totalComponentes).Perm
      (s.torre.take s.totalComponentes) ∧
    (insertionSort s).torre.drop s.totalComponentes = s.torre.drop s.totalComponentes := by
  obtain ⟨S, hT, hlen, hperm, _, _⟩ := insertionSort_inv s h
  refine ⟨insExt_total _ _, ?_, ?_, ?_⟩
  · rw [hT, List.length_append, hlen, List.length_drop]; omega
  · rw [hT, ← hlen, List.take_left']
    · rw [hlen]; exact hperm
    · rfl
  · rw [hT, ← hlen, List.drop_left']
    rfl

/-- C4: each of `bubbleSort`, `insertionSort` and `selectionSort` reorders in place: the
length `totalComponentes` and the array size are unchanged, the first `n` records after the
sort are a permutation of the first `n` records before it, and the slots at index `n` and
above are untouched. -/
theorem ordenacoes_no_lugar (s : Estado) (h : s.totalComponentes ≤ s.torre.length) :
    ((bubbleSort s).totalComponentes = s.totalComponentes ∧
      (bubbleSort s).torre.length = s.torre.length ∧
      ((bubbleSort s).torre.take s.totalComponentes).Perm (s.torre.take s.totalComponentes) ∧
      (bubbleSort s).torre.drop s.totalComponentes = s.torre.drop s.totalComponentes) ∧
    ((insertionSort s).totalComponentes = s.totalComponentes ∧
      (insertionSort s).torre.length = s.torre.length ∧
      ((insertionSort s).torre.take s.totalComponentes).Perm
        (s.torre.take s.totalComponentes) ∧
      (insertionSort s).torre.drop s.totalComponentes = s.torre.drop s.totalComponentes) ∧
    ((selectionSort s).totalComponentes = s.totalComponentes ∧
      (selectionSort s).torre.length = s.torre.length ∧
      ((selectionSort s).torre.take s.totalComponentes).Perm
        (s.torre.take s.totalComponentes) ∧
      (selectionSort s).torre.drop s.totalComponentes = s.torre.drop s.totalComponentes) :=
  ⟨bubbleSort_no_lugar s h, insertionSort_no_lugar s h, selectionSort_no_lugar s h⟩

theorem ordenacoes_no_lugar_witness :
    estadoTeste.totalComponentes ≤ estadoTeste.torre.length ∧
    ((bubbleSort estadoTeste).torre.take estadoTeste.totalComponentes).Perm
      (estadoTeste.torre.take estadoTeste.totalComponentes) ∧
    ((insertionSort estadoTeste).torre.take estadoTeste.totalComponentes).Perm
      (estadoTeste.torre.take estadoTeste.totalComponentes) ∧
    ((selectionSort estadoTeste).torre.take estadoTeste.totalComponentes).Perm
      (estadoTeste.torre.take estadoTeste.totalComponentes) :=
  ⟨by decide, (ordenacoes_no_lugar estadoTeste (by decide)).1.2.2.1,
    (ordenacoes_no_lugar estadoTeste (by decide)).2.1.2.2.1,
    (ordenacoes_no_lugar estadoTeste (by decide)).2.2.2.2.1⟩

/-! ## Binary search on a tower sorted by name -/

/-- C5: `buscaBinaria` on a tower whose first `n` slots are in ascending `strcmp` order of
name returns for every target name: when some slot below `n` holds exactly that name it
reports an index `i < n` whose name is the target; when none does it reports no index (the
not-found message, or for `n = 0` the warning of the early return). On the eight sample
records sorted by `bubbleSort`, "Chip Central" is reported at its index 2 and
"Nonexistent" is reported as not found. -/
theorem buscaBinaria_correta (s : Estado) (nomeBusca : List Nat)
    (hs : ∀ k, k + 1 < s.totalComponentes →
      strcmp (ler s.torre k).nome (ler s.torre (k + 1)).nome ≤ 0) :
    ((∃ k, k < s.totalComponentes ∧ (ler s.torre k).nome = nomeBusca) →
      ∃ i : Nat, i < s.totalComponentes ∧ (ler s.torre i).nome = nomeBusca ∧
        (buscaBinaria s nomeBusca).map Prod.snd = some (Saida.encontrado i)) ∧
    ((∀ k, k < s.totalComponentes → (ler s.torre k).nome ≠ nomeBusca) →
      (buscaBinaria s nomeBusca).map Prod.snd =
        some (if s.totalComponentes = 0 then Saida.aviso else Saida.naoEncontrado)) ∧
    ((buscaBinaria (bubbleSort estadoTeste) (bytes "Chip Central")).map Prod.snd =
        some (Saida.encontrado 2) ∧
      ler (bubbleSort estadoTeste).torre 2 = componente "Chip Central" "controle" 10 ∧
      (buscaBinaria (bubbleSort estadoTeste) (bytes "Nonexistent")).map Prod.snd =
        some Saida.naoEncontrado) := by
  refine ⟨?_, ?_, by decide, by decide, by decide⟩
  · rintro ⟨k, hk, e⟩
    obtain ⟨c, ⟨_, h2⟩ | ⟨i, hi, hn, hb⟩⟩ := buscaBinaria_spec s nomeBusca (by omega) hs
    · exact absurd e (h2 k hk)
    · exact ⟨i, hi, hn, by rw [hb]; rfl⟩
  · intro hnone
    rcases Nat.eq_zero_or_pos s.totalComponentes with h0 | h0
    · rw [if_pos h0]
      unfold buscaBinaria
      rw [if_pos h0]
      rfl
    · rw [if_neg (by omega)]
      obtain ⟨c, ⟨h1, _⟩ | ⟨i, hi, hn, _⟩⟩ := buscaBinaria_spec s nomeBusca h0 hs
      · rw [h1]; rfl
      · exact absurd hn (hnone i hi)

theorem buscaBinaria_correta_witness :
    (∀ k, k + 1 < (bubbleSort estadoTeste).totalComponentes →
      strcmp (ler (bubbleSort estadoTeste).torre k).nome
        (ler (bubbleSort estadoTeste).torre (k + 1)).nome ≤ 0) ∧
    (∃ k, k < (bubbleSort estadoTeste).totalComponentes ∧
      (ler (bubbleSort estadoTeste).torre k).nome = bytes "Chip Central") ∧
    (∃ i : Nat, i < (bubbleSort estadoTeste).totalComponentes ∧
      (ler (bubbleSort estadoTeste).torre i).nome = bytes "Chip Central" ∧
      (buscaBinaria (bubbleSort estadoTeste) (bytes "Chip Central")).map Prod.snd =
        some (Saida.encontrado i)) ∧
    (∀ k, k < (bubbleSort estadoTeste).totalComponentes →
      (ler (bubbleSort estadoTeste).torre k).nome ≠ bytes "Nonexistent") ∧
    (buscaBinaria (bubbleSort estadoTeste) (bytes "Nonexistent")).map Prod.snd =
      some (if (bubbleSort estadoTeste).totalComponentes = 0 then Saida.aviso
        else Saida.naoEncontrado) := by
  have hs : ∀ k, k + 1 < (bubbleSort estadoTeste).totalComponentes →
      strcmp (ler (bubbleSort estadoTeste).torre k).nome
        (ler (bubbleSort estadoTeste).torre (k + 1)).nome ≤ 0 := by
    intro k hk
    rw [bubbleSort_total] at hk
    exact bubbleSort_ordena estadoTeste (by decide) k hk
  have hex : ∃ k, k < (bubbleSort estadoTeste).totalComponentes ∧
      (ler (bubbleSort estadoTeste).torre k).nome = bytes "Chip Central" :=
    ⟨2, by decide, by decide⟩
  have hno : ∀ k, k < (bubbleSort estadoTeste).totalComponentes →
      (ler (bubbleSort estadoTeste).torre k).nome ≠ bytes "Nonexistent" := by
    intro k hk
    have h8 : k < 8 := hk
    interval_cases k <;> decide
  exact ⟨hs, hex, (buscaBinaria_correta (bubbleSort estadoTeste) (bytes "Chip Central") hs).1 hex,
    hno, (buscaBinaria_correta (bubbleSort estadoTeste) (bytes "Nonexistent") hs).2.1 hno⟩

/-! ## Stability of insertionSort -/

/-- C6: `insertionSort` is stable: for every category, the records of that category among
the first `n` slots appear after the sort in the same sequence as before it, so any two
records of equal category keep their relative order. -/
theorem insertionSort_estavel (s : Estado) (h : s.totalComponentes ≤ s.torre.length)
    (c : List Nat) :
    ((insertionSort s).torre.take s.totalComponentes).filter (fun r => decide (r.tipo = c)) =
      (s.torre.take s.totalComponentes).filter (fun r => decide (r.tipo = c)) := by
  obtain ⟨S, hT, hlen, _, _, hstab⟩ := insertionSort_inv s h
  rw [hT, ← hlen, List.take_left']
  · rw [hlen]; exact hstab c
  · rfl

theorem insertionSort_estavel_witness :
    estadoTeste.totalComponentes ≤ estadoTeste.torre.length ∧
    ((insertionSort estadoTeste).torre.take estadoTeste.totalComponentes).filter
        (fun r => decide (r.tipo = bytes "controle")) =
      (estadoTeste.torre.take estadoTeste.totalComponentes).filter
        (fun r => decide (r.tipo = bytes "controle")) :=
  ⟨by decide, insertionSort_estavel estadoTeste (by decide) (bytes "controle")⟩

/-! ## Comparison counts -/

/-- C7: the comparison counter after `bubbleSort` is exactly `n (n - 1) / 2` for a tower of
`n` records, whatever the records and their order. -/
theorem bubbleSort_comparacoes (s : Estado) :
    (bubbleSort s).comparacoes = s.totalComponentes * (s.totalComponentes - 1) / 2 :=
  bubbleSort_conta s

/-- C8: the comparison counter after `selectionSort` is exactly `n (n - 1) / 2` for a tower
of `n` records, whatever the records and their order. -/
theorem selectionSort_comparacoes (s : Estado) :
    (selectionSort s).comparacoes = s.totalComponentes * (s.totalComponentes - 1) / 2 :=
  selectionSort_conta s

/-- C9: the comparison counter after `insertionSort` is exactly `n - 1` on a tower already
in ascending order of category (0 for the empty tower), and exactly `n (n - 1) / 2` on a
tower in strictly descending order of category. -/
theorem insertionSort_comparacoes (s : Estado) (h : s.totalComponentes ≤ s.torre.length) :
    ((∀ k, k + 1 < s.totalComponentes →
        strcmp (ler s.torre k).tipo (ler s.torre (k + 1)).tipo ≤ 0) →
      (insertionSort s).comparacoes = s.totalComponentes - 1) ∧
    ((∀ k, k + 1 < s.totalComponentes →
        strcmp (ler s.torre k).tipo (ler s.torre (k + 1)).tipo > 0) →
      (insertionSort s).comparacoes = s.totalComponentes * (s.totalComponentes - 1) / 2) :=
  ⟨insertionSort_conta_ordenado s h, insertionSort_conta_reverso s h⟩

theorem insertionSort_comparacoes_witness :
    (estadoCrescente.totalComponentes ≤ estadoCrescente.torre.length ∧
      (∀ k, k + 1 < estadoCrescente.totalComponentes →
        strcmp (ler estadoCrescente.torre k).tipo (ler estadoCrescente.torre (k + 1)).tipo ≤ 0) ∧
      (insertionSort estadoCrescente).comparacoes = estadoCrescente.totalComponentes - 1) ∧
    (estadoDecrescente.totalComponentes ≤ estadoDecrescente.torre.length ∧
      (∀ k, k + 1 < estadoDecrescente.totalComponentes →
        strcmp (ler estadoDecrescente.torre k).tipo
          (ler estadoDecrescente.torre (k + 1)).tipo > 0) ∧
      (insertionSort estadoDecrescente).comparacoes =
        estadoDecrescente.totalComponentes * (estadoDecrescente.totalComponentes - 1) / 2) := by
  have h1 : ∀ k, k + 1 < estadoCrescente.totalComponentes →
      strcmp (ler estadoCrescente.torre k).tipo (ler estadoCrescente.torre (k + 1)).tipo ≤ 0 := by
    intro k hk
    have h3 : k + 1 < 3 := hk
    have h2 : k < 2 := by omega
    interval_cases k <;> decide
  have h2 : ∀ k, k + 1 < estadoDecrescente.totalComponentes →
      strcmp (ler estadoDecrescente.torre k).tipo
        (ler estadoDecrescente.torre (k + 1)).tipo > 0 := by
    intro k hk
    have h3 : k + 1 < 3 := hk
    have h2 : k < 2 := by omega
    interval_cases k <;> decide
  exact ⟨⟨by decide, h1, (insertionSort_comparacoes estadoCrescente (by decide)).1 h1⟩,
    ⟨by decide, h2, (insertionSort_comparacoes estadoDecrescente (by decide)).2 h2⟩⟩

/-! ## Idempotence of bubbleSort -/

/-- C10: running `bubbleSort` twice in a row leaves the array exactly as running it once
does. -/
theorem bubbleSort_idempotente (s : Estado) (h : s.totalComponentes ≤ s.torre.length) :
    (bubbleSort (bubbleSort s)).torre = (bubbleSort s).torre := by
  have ht := bubbleSort_total s
  exact bubbleExt_ordenado { bubbleSort s with comparacoes := 0 } _
    (fun k hk => bubbleSort_ordena s h k (by rw [← ht]; exact hk))

theorem bubbleSort_idempotente_witness :
    estadoTeste.totalComponentes ≤ estadoTeste.torre.length ∧
    (bubbleSort (bubbleSort estadoTeste)).torre = (bubbleSort estadoTeste).torre :=
  ⟨by decide, bubbleSort_idempotente estadoTeste (by decide)⟩

/-! ## Empty and singleton towers -/

/-- C11: on a tower of `n = 0` or `n = 1` records each of `bubbleSort`, `insertionSort`
and `selectionSort` ends with the comparison counter at zero and with the array and the
length unchanged. -/
theorem ordenacoes_triviais (s : Estado) (h : s.totalComponentes ≤ 1) :
    ((bubbleSort s).comparacoes = 0 ∧ (bubbleSort s).torre = s.torre ∧
      (bubbleSort s).totalComponentes = s.totalComponentes) ∧
    ((insertionSort s).comparacoes = 0 ∧ (insertionSort s).torre = s.torre ∧
      (insertionSort s).totalComponentes = s.totalComponentes) ∧
    ((selectionSort s).comparacoes = 0 ∧ (selectionSort s).torre = s.torre ∧
      (selectionSort s).totalComponentes = s.totalComponentes) := by
  have h0 : s.totalComponentes - 1 = 0 := by omega
  unfold bubbleSort insertionSort selectionSort
  rw [h0]
  exact ⟨⟨rfl, rfl, rfl⟩, ⟨rfl, rfl, rfl⟩, ⟨rfl, rfl, rfl⟩⟩

theorem ordenacoes_triviais_witness :
    estadoUnico.totalComponentes ≤ 1 ∧
    ((bubbleSort estadoUnico).comparacoes = 0 ∧ (bubbleSort estadoUnico).torre = estadoUnico.torre ∧
      (bubbleSort estadoUnico).totalComponentes = estadoUnico.totalComponentes) ∧
    ((insertionSort estadoUnico).comparacoes = 0 ∧
      (insertionSort estadoUnico).torre = estadoUnico.torre ∧
      (insertionSort estadoUnico).totalComponentes = estadoUnico.totalComponentes) ∧
    ((selectionSort estadoUnico).comparacoes = 0 ∧
      (selectionSort estadoUnico).torre = estadoUnico.torre ∧
      (selectionSort estadoUnico).totalComponentes = estadoUnico.totalComponentes) :=
  ⟨by decide, ordenacoes_triviais estadoUnico (by decide)⟩

/-! ## buscaBinaria on an empty tower -/

/-- C13: from Motor(9), Chip(10), Base(7), `selectionSort` yields Chip, Motor, Base with 3
comparisons; `bubbleSort` then yields Base, Chip, Motor with 3 comparisons; `buscaBinaria`
for "Chip" on that state reports index 1. -/
theorem exemplo_ponta_a_ponta :
    (selectionSort estadoExemplo).torre.take 3 =
      [componente "Chip" "controle" 10, componente "Motor" "propulsao" 9,
        componente "Base" "estrutura" 7] ∧
    (selectionSort estadoExemplo).comparacoes = 3 ∧
    (bubbleSort (selectionSort estadoExemplo)).torre.take 3 =
      [componente "Base" "estrutura" 7, componente "Chip" "controle" 10,
        componente "Motor" "propulsao" 9] ∧
    (bubbleSort (selectionSort estadoExemplo)).comparacoes = 3 ∧
    (buscaBinaria (bubbleSort (selectionSort estadoExemplo)) (bytes "Chip")).map Prod.snd =
      some (Saida.encontrado 1) := by
  decide

/-! ## selectionSort is not stable -/

/-- C16: `selectionSort` is not stable: on A(5), B(5), C(9) the two records of priority 5
are A then B before the sort and B then A after it (the result is C, B, A). -/
theorem selectionSort_instavel :
    estadoEmpate.totalComponentes = 3 ∧
    (estadoEmpate.torre.take 3).filter (fun r => decide (r.prioridade = 5)) =
      [componente "A" "suporte" 5, componente "B" "suporte" 5] ∧
    ((selectionSort estadoEmpate).torre.take 3).filter (fun r => decide (r.prioridade = 5)) =
      [componente "B" "suporte" 5, componente "A" "suporte" 5] ∧
    (selectionSort estadoEmpate).torre.take 3 =
      [componente "C" "suporte" 9, componente "B" "suporte" 5, componente "A" "suporte" 5] := by
  decide

/-! ## buscaBinaria on a tower that is not sorted by name -/

/-- C17: on the tower Chip, Motor, Base (the example after `selectionSort`), which is not
in ascending order of name, `buscaBinaria` for "Base" reports not found although slot 2
holds that name; the outcome is the ordinary not-found message. -/
theorem buscaBinaria_sem_ordem :
    (selectionSort estadoExemplo).totalComponentes = 3 ∧
    strcmp (ler (selectionSort estadoExemplo).torre 1).nome
      (ler (selectionSort estadoExemplo).torre 2).nome > 0 ∧
    (ler (selectionSort estadoExemplo).torre 2).nome = bytes "Base" ∧
    (buscaBinaria (selectionSort estadoExemplo) (bytes "Base")).map Prod.snd =
      some Saida.naoEncontrado := by
  decide

/-! ## buscaBinaria without the sortedness precondition -/

theorem buscaIndices_sai (t : List Componente) (nomeBusca : List Nat) (fuel : Nat)
    (esquerda direita : Int) (h : ¬ esquerda ≤ direita) :
    buscaIndices t nomeBusca fuel esquerda direita = [] := by
  unfold buscaIndices
  rw [if_neg h]

theorem buscaIndices_passo (t : List Componente) (nomeBusca : List Nat) (fuel : Nat)
    (esquerda direita : Int) (h : esquerda ≤ direita) :
    buscaIndices t nomeBusca (fuel + 1) esquerda direita =
      if strcmp (ler t (esquerda + (direita - esquerda) / 2).toNat).nome nomeBusca = 0 then
        [esquerda + (direita - esquerda) / 2]
      else if strcmp (ler t (esquerda + (direita - esquerda) / 2).toNat).nome nomeBusca < 0 then
        (esquerda + (direita - esquerda) / 2) ::
          buscaIndices t nomeBusca fuel (esquerda + (direita - esquerda) / 2 + 1) direita
      else (esquerda + (direita - esquerda) / 2) ::
          buscaIndices t nomeBusca fuel esquerda (esquerda + (direita - esquerda) / 2 - 1) := by
  rw [buscaIndices, if_pos h]
  dsimp only
  rw [Int.tdiv_eq_ediv (by omega) (by decide)]

/-- Every index read by the loop lies in the current range `[esquerda, direita]`. -/
theorem buscaIndices_limites (t : List Componente) (nomeBusca : List Nat) :
    ∀ (fuel : Nat) (esquerda direita : Int),
      ∀ m ∈ buscaIndices t nomeBusca fuel esquerda direita, esquerda ≤ m ∧ m ≤ direita := by
  intro fuel
  induction fuel with
  | zero =>
    intro esquerda direita m hm
    unfold buscaIndices at hm
    split_ifs at hm <;> simp at hm
  | succ fuel ih =>
    intro esquerda direita m hm
    by_cases hle : esquerda ≤ direita
    · rw [buscaIndices_passo _ _ _ _ _ hle] at hm
      have hm1 : esquerda ≤ esquerda + (direita - esquerda) / 2 := by omega
      have hm2 : esquerda + (direita - esquerda) / 2 ≤ direita := by omega
      generalize esquerda + (direita - esquerda) / 2 = meio at hm hm1 hm2
      split_ifs at hm
      · rw [List.mem_singleton.1 hm]; exact ⟨hm1, hm2⟩
      · rcases List.mem_cons.1 hm with e | hm'
        · rw [e]; exact ⟨hm1, hm2⟩
        · have := ih _ _ m hm'
          omega
      · rcases List.mem_cons.1 hm with e | hm'
        · rw [e]; exact ⟨hm1, hm2⟩
        · have := ih _ _ m hm'
          omega
    · rw [buscaIndices_sai _ _ _ _ _ hle] at hm
      simp at hm

/-- The loop reads at least one index when the range is not empty. -/
theorem buscaIndices_pos (t : List Componente) (nomeBusca : List Nat) (fuel : Nat)
    (esquerda direita : Int) (h : esquerda ≤ direita) :
    1 ≤ (buscaIndices t nomeBusca (fuel + 1) esquerda direita).length := by
  rw [buscaIndices_passo _ _ _ _ _ h]
  split_ifs <;> simp

/-- The loop reads at most `k` indices when the range holds fewer than `2 ^ k` slots. -/
theorem buscaIndices_log (t : List Componente) (nomeBusca : List Nat) :
    ∀ (fuel : Nat) (k : Nat) (esquerda direita : Int),
      direita - esquerda + 1 < 2 ^ k →
      (buscaIndices t nomeBusca fuel esquerda direita).length ≤ k := by
  intro fuel
  induction fuel with
  | zero =>
    intro k esquerda direita _
    unfold buscaIndices
    split_ifs <;> simp
  | succ fuel ih =>
    intro k esquerda direita hk
    by_cases hle : esquerda ≤ direita
    · rw [buscaIndices_passo _ _ _ _ _ hle]
      cases k with
      | zero =>
        simp at hk
        omega
      | succ k =>
        have hp : (2 : Int) ^ (k + 1) = 2 * 2 ^ k := by ring
        rw [hp] at hk
        split_ifs
        · simp
        · have := ih k (esquerda + (direita - esquerda) / 2 + 1) direita (by omega)
          simp only [List.length_cons]
          omega
        · have := ih k esquerda (esquerda + (direita - esquerda) / 2 - 1) (by omega)
          simp only [List.length_cons]
          omega
    · rw [buscaIndices_sai _ _ _ _ _ hle]
      simp

/-- The loop of `buscaBinaria` on any array, with at least `direita - esquerda + 1`
iterations allowed: it ends, counting one comparison per index read, with `-1` or with an
index of the range whose name is the target. -/
theorem buscaLaco_termina (t : List Componente) (nomeBusca : List Nat) :
    ∀ (fuel : Nat) (esquerda direita : Int) (c : Nat),
      0 ≤ esquerda → direita - esquerda + 1 ≤ fuel →
      ∃ r, buscaLaco t nomeBusca fuel esquerda direita c =
          some (r, c + (buscaIndices t nomeBusca fuel esquerda direita).length) ∧
        (r = -1 ∨ (esquerda ≤ r ∧ r ≤ direita ∧ (ler t r.toNat).nome = nomeBusca)) := by
  intro fuel
  induction fuel with
  | zero =>
    intro esquerda direita c _ h2
    have hne : ¬ esquerda ≤ direita := by omega
    rw [buscaLaco_sai _ _ _ _ _ _ hne, buscaIndices_sai _ _ _ _ _ hne]
    exact ⟨-1, rfl, Or.inl rfl⟩
  | succ fuel ih =>
    intro esquerda direita c h0 h2
    by_cases hle : esquerda ≤ direita
    · rw [buscaLaco_passo _ _ _ _ _ _ hle, buscaIndices_passo _ _ _ _ _ hle]
      have hm1 : esquerda ≤ esquerda + (direita - esquerda) / 2 := by omega
      have hm2 : esquerda + (direita - esquerda) / 2 ≤ direita := by omega
      generalize esquerda + (direita - esquerda) / 2 = meio at hm1 hm2
      split_ifs with e1 e2
      · exact ⟨meio, rfl, Or.inr ⟨hm1, hm2, strcmp_eq_zero _ _ e1⟩⟩
      · obtain ⟨r, hr, hcase⟩ := ih (meio + 1) direita (c + 1) (by omega) (by omega)
        refine ⟨r, ?_, ?_⟩
        · rw [hr, List.length_cons]
          congr 2
          omega
        · rcases hcase with h | ⟨h3, h4, h5⟩
          · exact Or.inl h
          · exact Or.inr ⟨by omega, h4, h5⟩
      · obtain ⟨r, hr, hcase⟩ := ih esquerda (meio - 1) (c + 1) h0 (by omega)
        refine ⟨r, ?_, ?_⟩
        · rw [hr, List.length_cons]
          congr 2
          omega
        · rcases hcase with h | ⟨h3, h4, h5⟩
          · exact Or.inl h
          · exact Or.inr ⟨h3, by omega, h5⟩
    · rw [buscaLaco_sai _ _ _ _ _ _ hle, buscaIndices_sai _ _ _ _ _ hle]
      exact ⟨-1, rfl, Or.inl rfl⟩

/-- The function `buscaBinaria` on any non-empty tower: it returns, with the array and the
length unchanged, the counter equal to the number of indices read, and either the
not-found message or an index below `n` whose name is the target. -/
theorem buscaBinaria_geral (s : Estado) (nomeBusca : List Nat) (hn : 0 < s.totalComponentes) :
    ∃ r, buscaBinaria s nomeBusca =
        some ({ s with comparacoes := (buscaIndices s.torre nomeBusca s.totalComponentes 0
          ((s.totalComponentes : Int) - 1)).length }, r) ∧
      (r = Saida.naoEncontrado ∨
        ∃ i : Nat, r = Saida.encontrado i ∧ i < s.totalComponentes ∧
          (ler s.torre i).nome = nomeBusca) := by
  obtain ⟨r, hr, hcase⟩ := buscaLaco_termina s.torre nomeBusca s.totalComponentes 0
    ((s.totalComponentes : Int) - 1) 0 (le_refl _) (by omega)
  unfold buscaBinaria
  rw [if_neg (by omega), hr]
  dsimp only
  rw [Nat.zero_add]
  rcases hcase with h1 | ⟨h1, h2, h3⟩
  · refine ⟨_, rfl, Or.inl ?_⟩
    rw [h1]
    simp
  · refine ⟨_, rfl, Or.inr ⟨r.toNat, ?_, by omega, h3⟩⟩
    rw [if_pos (by omega), Int.toNat_of_nonneg h1]

/-! ## buscaBinaria on a singleton tower -/

/-- C14, as stated, fails: on the tower holding the single record Chip the search for
"Chip" ends with the comparison counter at 1, not 0. -/
theorem buscaBinaria_unico_contador :
    estadoUnico.totalComponentes = 1 ∧
    (buscaBinaria estadoUnico (bytes "Chip")).map (fun r => (r.1.comparacoes, r.2)) =
      some (1, Saida.encontrado 0) ∧
    (buscaBinaria estadoUnico (bytes "Base")).map (fun r => (r.1.comparacoes, r.2)) =
      some (1, Saida.naoEncontrado) := by
  decide

/-- C14, amended: on a tower of one record `buscaBinaria` performs exactly one comparison
for every target name and leaves the array and the length unchanged; it reports index 0
when the record has the target name and not found otherwise. -/
theorem buscaBinaria_unico (s : Estado) (nomeBusca : List Nat)
    (h : s.totalComponentes = 1) :
    buscaBinaria s nomeBusca = some ({ s with comparacoes := 1 },
      if (ler s.torre 0).nome = nomeBusca then Saida.encontrado 0
      else Saida.naoEncontrado) := by
  unfold buscaBinaria
  rw [if_neg (by omega), h]
  have e : buscaLaco s.torre nomeBusca 1 0 (((1 : Nat) : Int) - 1) 0 =
      some (if (ler s.torre 0).nome = nomeBusca then 0 else -1, 1) := by
    rw [buscaLaco_passo _ _ 0 _ _ _ (by decide)]
    have hm : ((0 : Int) + ((((1 : Nat) : Int) - 1) - 0) / 2) = 0 := by decide
    rw [hm]
    have h0 : (0 : Int).toNat = 0 := rfl
    rw [h0]
    by_cases hc : strcmp (ler s.torre 0).nome nomeBusca = 0
    · rw [if_pos hc, if_pos (strcmp_eq_zero _ _ hc)]
    · have hne : ¬ (ler s.torre 0).nome = nomeBusca := fun e => hc (e ▸ strcmp_self _)
      rw [if_neg hc, if_neg hne]
      split_ifs
      · exact buscaLaco_sai _ _ _ _ _ _ (by decide)
      · exact buscaLaco_sai _ _ _ _ _ _ (by decide)
  rw [e]
  dsimp only
  by_cases hc : (ler s.torre 0).nome = nomeBusca
  · simp [hc]
  · simp [hc]

theorem buscaBinaria_unico_witness :
    estadoUnico.totalComponentes = 1 ∧
    buscaBinaria estadoUnico (bytes "Chip") = some ({ estadoUnico with comparacoes := 1 },
      if (ler estadoUnico.torre 0).nome = bytes "Chip" then Saida.encontrado 0
      else Saida.naoEncontrado) :=
  ⟨by decide, buscaBinaria_unico estadoUnico (bytes "Chip") (by decide)⟩

/-! ## buscaBinaria: safety and cost on any tower -/

/-- C18: for every tower of `n` records, sorted by name or not, and every target: each
index read by `buscaBinaria` lies in `[0, n)`; the call returns with the array and the
length unchanged (only the counter changes, to the number of indices read when `n > 0`);
and whenever it reports index `i`, `0 <= i < n` and the name at slot `i` is the target. -/
theorem buscaBinaria_segura (s : Estado) (nomeBusca : List Nat) :
    (∀ m ∈ buscaIndices s.torre nomeBusca s.totalComponentes 0
        ((s.totalComponentes : Int) - 1), 0 ≤ m ∧ m < s.totalComponentes) ∧
    ∃ r, buscaBinaria s nomeBusca = some
        ({ s with comparacoes := if s.totalComponentes = 0 then s.comparacoes else
            (buscaIndices s.torre nomeBusca s.totalComponentes 0
              ((s.totalComponentes : Int) - 1)).length }, r) ∧
      ∀ i : Int, r = Saida.encontrado i →
        0 ≤ i ∧ i < s.totalComponentes ∧ (ler s.torre i.toNat).nome = nomeBusca := by
  constructor
  · intro m hm
    have := buscaIndices_limites _ _ _ _ _ m hm
    omega
  · rcases Nat.eq_zero_or_pos s.totalComponentes with h0 | h0
    · refine ⟨Saida.aviso, ?_, ?_⟩
      · unfold buscaBinaria
        rw [if_pos h0, if_pos h0]
      · intro i hi
        cases hi
    · obtain ⟨r, hr, hcase⟩ := buscaBinaria_geral s nomeBusca h0
      refine ⟨r, ?_, ?_⟩
      · rw [if_neg (by omega)]
        exact hr
      · intro i hi
        rcases hcase with h1 | ⟨k, hk, hkn, hnome⟩
        · rw [h1] at hi
          cases hi
        · rw [hk] at hi
          have e : (k : Int) = i := Saida.encontrado.inj hi
          rw [← e]
          exact ⟨by omega, by omega, by simpa using hnome⟩

/-- C19: on every tower of `n >= 1` records, sorted or not, and for every target,
`buscaBinaria` returns and its comparison count is at least 1 and at most
`floor(log2 n) + 1`, hence at most 5 when `n` is at most the capacity 20. -/
theorem buscaBinaria_logaritmica (s : Estado) (nomeBusca : List Nat)
    (hn : 1 ≤ s.totalComponentes) :
    ∃ r c, buscaBinaria s nomeBusca = some ({ s with comparacoes := c }, r) ∧
      1 ≤ c ∧ c ≤ Nat.log 2 s.totalComponentes + 1 ∧
      (s.totalComponentes ≤ MAX_COMPONENTES → c ≤ 5) := by
  obtain ⟨r, hr, _⟩ := buscaBinaria_geral s nomeBusca hn
  refine ⟨r, _, hr, ?_, ?_, ?_⟩
  · obtain ⟨d, hd⟩ : ∃ d, s.totalComponentes = d + 1 := ⟨s.totalComponentes - 1, by omega⟩
    rw [hd]
    exact buscaIndices_pos _ _ _ _ _ (by omega)
  · apply buscaIndices_log
    have h1 := Nat.lt_pow_succ_log_self (by decide : 1 < 2) s.totalComponentes
    have h2 : ((s.totalComponentes : Nat) : Int) < ((2 ^ (Nat.log 2 s.totalComponentes).succ : Nat) : Int) :=
      Int.ofNat_lt.2 h1
    rw [Nat.cast_pow] at h2
    have h3 : (((2 : Nat) : Int)) = 2 := rfl
    rw [h3] at h2
    omega
  · intro h20
    apply buscaIndices_log
    have h1 : s.totalComponentes ≤ 20 := h20
    have h2 : (2 : Int) ^ 5 = 32 := by decide
    rw [h2]
    omega

theorem buscaBinaria_logaritmica_witness :
    1 ≤ estadoTeste.totalComponentes ∧
    ∃ r c, buscaBinaria estadoTeste (bytes "Painel Solar") =
        some ({ estadoTeste with comparacoes := c }, r) ∧
      1 ≤ c ∧ c ≤ Nat.log 2 estadoTeste.totalComponentes + 1 ∧
      (estadoTeste.totalComponentes ≤ MAX_COMPONENTES → c ≤ 5) :=
  ⟨by decide, buscaBinaria_logaritmica estadoTeste (bytes "Painel Solar") (by decide)⟩

/-! ## Stability of bubbleSort -/

theorem decompor_par (t : List Componente) (j : Nat) (h : j + 1 < t.length) :
    ∃ A x y C, t = A ++ x :: y :: C ∧ A.length = j := by
  refine ⟨t.take j, t[j], t[j + 1], t.drop (j + 2), ?_, ?_⟩
  · refine (List.take_append_drop j t).symm.trans ?_
    rw [List.drop_eq_getElem_cons (by omega : j < t.length),
      List.drop_eq_getElem_cons (by omega : j + 1 < t.length)]
  · rw [List.length_take]; omega

theorem troca_par (A C : List Componente) (x y : Componente) :
    troca (A ++ x :: y :: C) A.length (A.length + 1) = A ++ y :: x :: C := by
  have h1 : ler (A ++ x :: y :: C) A.length = x := ler_meio A (y :: C) x
  have h2 : ler (A ++ x :: y :: C) (A.length + 1) = y := by
    have := ler_meio (A ++ [x]) C y
    simpa using this
  unfold troca
  rw [h1, h2, set_meio]
  simp

/-- Exchanging two adjacent records of different names keeps, for every name, the sequence
of the records of that name. -/
theorem troca_filtro (t : List Componente) (j : Nat) (h : j + 1 < t.length)
    (hne : (ler t j).nome ≠ (ler t (j + 1)).nome) (c : List Nat) :
    (troca t j (j + 1)).filter (fun r => decide (r.nome = c)) =
      t.filter (fun r => decide (r.nome = c)) := by
  obtain ⟨A, x, y, C, ht, hl⟩ := decompor_par t j h
  subst ht
  subst hl
  have h1 : ler (A ++ x :: y :: C) A.length = x := ler_meio A (y :: C) x
  have h2 : ler (A ++ x :: y :: C) (A.length + 1) = y := by
    have := ler_meio (A ++ [x]) C y
    simpa using this
  rw [h1, h2] at hne
  rw [troca_par]
  simp only [List.filter_append, List.filter_cons]
  by_cases hx : x.nome = c
  · have hy : ¬ y.nome = c := fun e => hne (hx.trans e.symm)
    simp [hx, hy]
  · simp [hx]

theorem bubblePasso_filtro (s : Estado) (j : Nat) (h : j + 1 < s.torre.length) (c : List Nat) :
    (bubblePasso s j).torre.filter (fun r => decide (r.nome = c)) =
      s.torre.filter (fun r => decide (r.nome = c)) := by
  rw [bubblePasso_torre]
  split_ifs with hgt
  · apply troca_filtro _ _ h
    intro e
    rw [e, strcmp_self] at hgt
    omega
  · rfl

theorem bubbleLaco_filtro (s : Estado) (m : Nat) (hm : m < s.torre.length) (c : List Nat) :
    ((List.range m).foldl bubblePasso s).torre.filter (fun r => decide (r.nome = c)) =
      s.torre.filter (fun r => decide (r.nome = c)) := by
  induction m with
  | zero => rfl
  | succ m ih =>
    have hl := bubbleLaco_length s m
    rw [bubbleLaco_succ, bubblePasso_filtro _ _ (by omega)]
    exact ih (by omega)

theorem bubbleExt_filtro (s : Estado) (i : Nat) (h : s.totalComponentes ≤ s.torre.length)
    (c : List Nat) :
    ((List.range i).foldl bubbleInterno s).torre.filter (fun r => decide (r.nome = c)) =
      s.torre.filter (fun r => decide (r.nome = c)) := by
  induction i with
  | zero => rfl
  | succ i ih =>
    have hl := bubbleExt_length s i
    have ht := bubbleExt_total s i
    rw [bubbleExt_succ, bubbleInterno]
    rcases Nat.eq_zero_or_pos (s.totalComponentes - i - 1) with h0 | h0
    · rw [ht, h0]; exact ih
    · rw [bubbleLaco_filtro _ _ (by omega)]; exact ih

theorem take_filter_of_filter (t u : List Componente) (n : Nat) (p : Componente → Bool)
    (hf : t.filter p = u.filter p) (hd : t.drop n = u.drop n) :
    (t.take n).filter p = (u.take n).filter p := by
  have h1 : (t.take n ++ t.drop n).filter p = (u.take n ++ u.drop n).filter p := by
    rw [List.take_append_drop, List.take_append_drop]
    exact hf
  rw [List.filter_append, List.filter_append, hd] at h1
  exact List.append_cancel_right h1

/-- C15: `bubbleSort` is stable: for every name, the records of that name among the first
`n` slots appear after the sort in the same sequence as before it, so any two records of
equal name keep their relative order. -/
theorem bubbleSort_estavel (s : Estado) (h : s.totalComponentes ≤ s.torre.length)
    (c : List Nat) :
    ((bubbleSort s).torre.take s.totalComponentes).filter (fun r => decide (r.nome = c)) =
      (s.torre.take s.totalComponentes).filter (fun r => decide (r.nome = c)) :=
  take_filter_of_filter _ _ _ _ (bubbleExt_filtro { s with comparacoes := 0 } _ h c)
    (bubbleSort_no_lugar s h).2.2.2

theorem bubbleSort_estavel_witness :
    estadoRepetido.totalComponentes ≤ estadoRepetido.torre.length ∧
    (estadoRepetido.torre.take estadoRepetido.totalComponentes).filter
        (fun r => decide (r.nome = bytes "Chip")) =
      [componente "Chip" "controle" 10, componente "Chip" "suporte" 5] ∧
    (bubbleSort estadoRepetido).torre.take estadoRepetido.totalComponentes =
      [componente "Base" "estrutura" 7, componente "Chip" "controle" 10,
        componente "Chip" "suporte" 5] ∧
    ((bubbleSort estadoRepetido).torre.take estadoRepetido.totalComponentes).filter
        (fun r => decide (r.nome = bytes "Chip")) =
      (estadoRepetido.torre.take estadoRepetido.totalComponentes).filter
        (fun r => decide (r.nome = bytes "Chip")) :=
  ⟨by decide, by decide, by decide,
    bubbleSort_estavel estadoRepetido (by decide) (bytes "Chip")⟩

/-! ## insertionSort: the comparison count on any input -/

/-- In a prefix `A ++ B` in ascending order of category that the while loop split around
the key `x`, the records strictly above `x` are exactly those of `B`. -/
theorem contagem_particao (A B : List Componente) (x : Componente)
    (hB : ∀ b ∈ B, strcmp b.tipo x.tipo > 0)
    (hA : A = [] ∨ ∃ A' z, A = A' ++ [z] ∧ strcmp z.tipo x.tipo ≤ 0)
    (hs : (A ++ B).Pairwise (fun a b => strcmp a.tipo b.tipo ≤ 0)) :
    (A ++ B).countP (fun r => decide (strcmp r.tipo x.tipo > 0)) = B.length ∧
    (A = [] ↔ (A ++ B).countP (fun r => decide (strcmp r.tipo x.tipo > 0)) =
      (A ++ B).length) := by
  have hpa := (List.pairwise_append.1 hs).1
  have hcA : A.countP (fun r => decide (strcmp r.tipo x.tipo > 0)) = 0 := by
    rw [List.countP_eq_zero]
    intro a ha
    have hax : strcmp a.tipo x.tipo ≤ 0 := by
      rcases hA with hA | ⟨A', z, hA, hz⟩
      · rw [hA] at ha; simp at ha
      · rw [hA] at ha hpa
        rcases List.mem_append.1 ha with ha | ha
        · have := (List.pairwise_append.1 hpa).2.2 a ha z (by simp)
          exact strcmp_le_trans _ _ _ this hz
        · rw [List.mem_singleton.1 ha]; exact hz
    simp only [decide_eq_true_eq]
    omega
  have hcB : B.countP (fun r => decide (strcmp r.tipo x.tipo > 0)) = B.length := by
    rw [List.countP_eq_length]
    intro b hb
    simp only [decide_eq_true_eq]
    exact hB b hb
  rw [List.countP_append, hcA, hcB, List.length_append]
  refine ⟨by omega, ?_⟩
  constructor
  · intro h; rw [h]; simp
  · intro h
    have : A.length = 0 := by omega
    exact List.length_eq_zero.1 this

theorem maiores_le (t : List Componente) (i : Nat) : maiores t i ≤ i := by
  unfold maiores
  have h1 := List.countP_le_length (fun r => decide (strcmp r.tipo (ler t i).tipo > 0))
    (l := t.take i)
  rw [List.length_take] at h1
  omega

/-- After the iterations `i = 1..m` the counter has grown by the strict inversions ending
at each `i`, plus one for each `i` whose record is not below every record before it. -/
theorem insExt_conta (s : Estado) (m : Nat) (hm : m < s.torre.length) :
    ((List.range' 1 m).foldl insertionPasso s).comparacoes =
      s.comparacoes + ((List.range' 1 m).map (maiores s.torre)).sum +
        (List.range' 1 m).countP (fun i => decide (maiores s.torre i < i)) := by
  induction m with
  | zero => simp
  | succ m ih =>
    have ihc := ih (by omega)
    obtain ⟨S, hT, hperm, hsort, _⟩ := insExt_inv s m (by omega)
    have hlen : S.length = m + 1 := by
      rw [hperm.length_eq, List.length_take]; omega
    rw [List.drop_eq_getElem_cons hm] at hT
    obtain ⟨A, B, hS, hB, hA, _, hc⟩ := insertionPasso_spec _ (m + 1) S _ _ hT hlen
    rw [hS] at hsort
    obtain ⟨q1, q2⟩ := contagem_particao A B _ hB hA hsort
    have hmai : maiores s.torre (m + 1) =
        (A ++ B).countP (fun r => decide (strcmp r.tipo (s.torre[m + 1]).tipo > 0)) := by
      unfold maiores
      rw [ler_eq_getElem _ _ hm, ← hS]
      exact (hperm.countP_eq _).symm
    rw [← hS, hlen] at q2
    rw [← hS] at hmai q1
    have hle := maiores_le s.torre (m + 1)
    rw [insExt_succ, hc, ihc, List.range'_concat, List.map_append, List.sum_append,
      List.countP_append]
    simp only [Nat.one_mul, List.map_cons, List.map_nil, List.sum_cons, List.sum_nil,
      List.countP_cons, List.countP_nil, Nat.add_comm 1 m]
    rw [hmai, q1]
    by_cases hA0 : A = []
    · have h1 := q2.1 hA0
      rw [q1] at h1
      rw [if_pos hA0]
      simp only [decide_eq_true_eq]
      rw [if_neg (by omega)]
      omega
    · have h1 : ¬ (List.countP (fun r => decide (strcmp r.tipo (s.torre[m + 1]).tipo > 0)) S
          = m + 1) := fun e => hA0 (q2.2 e)
      rw [q1] at h1
      rw [hmai, q1] at hle
      rw [if_neg hA0]
      simp only [decide_eq_true_eq]
      rw [if_pos (by omega)]
      omega

/-- Each iteration counts at least one and at most `i` comparisons. -/
theorem conta_limites (t : List Componente) (m : Nat) :
    m ≤ ((List.range' 1 m).map (maiores t)).sum +
        (List.range' 1 m).countP (fun i => decide (maiores t i < i)) ∧
    2 * (((List.range' 1 m).map (maiores t)).sum +
        (List.range' 1 m).countP (fun i => decide (maiores t i < i))) ≤ m * (m + 1) := by
  induction m with
  | zero => simp
  | succ m ih =>
    obtain ⟨h1, h2⟩ := ih
    have hle := maiores_le t (m + 1)
    rw [List.range'_concat, List.map_append, List.sum_append, List.countP_append]
    simp only [Nat.one_mul, List.map_cons, List.map_nil, List.sum_cons, List.sum_nil,
      List.countP_cons, List.countP_nil, Nat.add_comm 1 m, decide_eq_true_eq]
    generalize ((List.range' 1 m).map (maiores t)).sum = a at h1 h2
    generalize (List.range' 1 m).countP (fun i => decide (maiores t i < i)) = b at h1 h2
    generalize maiores t (m + 1) = d at hle
    have e : (m + 1) * (m + 1 + 1) = m * (m + 1) + 2 * (m + 1) := by ring
    rw [e]
    split_ifs <;> omega

theorem insertionSort_conta (s : Estado) (h : s.totalComponentes ≤ s.torre.length) :
    (insertionSort s).comparacoes =
      inversoes s.torre s.totalComponentes + paradas s.torre s.totalComponentes := by
  rcases Nat.eq_zero_or_pos s.totalComponentes with h0 | h0
  · simp [insertionSort, inversoes, paradas, h0]
  · have := insExt_conta { s with comparacoes := 0 } (s.totalComponentes - 1)
      (by show s.totalComponentes - 1 < s.torre.length; omega)
    unfold insertionSort inversoes paradas
    rw [this]
    simp

/-- C20: on every tower of `n >= 1` records the comparison counter `c` after
`insertionSort` satisfies `n - 1 <= c <= n (n - 1) / 2`, and `c` is the number of strict
inversions of category of the input plus the number of indices `i` in `1 .. n - 1` whose
record is not strictly smaller in category than every record before it. -/
theorem insertionSort_comparacoes_geral (s : Estado)
    (h : s.totalComponentes ≤ s.torre.length) (hn : 1 ≤ s.totalComponentes) :
    s.totalComponentes - 1 ≤ (insertionSort s).comparacoes ∧
    (insertionSort s).comparacoes ≤ s.totalComponentes * (s.totalComponentes - 1) / 2 ∧
    (insertionSort s).comparacoes =
      inversoes s.torre s.totalComponentes + paradas s.torre s.totalComponentes := by
  have hc := insertionSort_conta s h
  obtain ⟨h1, h2⟩ := conta_limites s.torre (s.totalComponentes - 1)
  refine ⟨?_, ?_, hc⟩
  · rw [hc]; exact h1
  · rw [hc]
    unfold inversoes paradas
    obtain ⟨d, hd⟩ : ∃ d, s.totalComponentes = d + 1 := ⟨s.totalComponentes - 1, by omega⟩
    rw [hd] at h2 ⊢
    simp only [Nat.add_sub_cancel] at h2 ⊢
    rw [Nat.le_div_iff_mul_le (by decide)]
    rw [Nat.mul_comm (d + 1) d]
    omega

theorem insertionSort_comparacoes_geral_witness :
    estadoTeste.totalComponentes ≤ estadoTeste.torre.length ∧
    1 ≤ estadoTeste.totalComponentes ∧
    estadoTeste.totalComponentes - 1 ≤ (insertionSort estadoTeste).comparacoes ∧
    (insertionSort estadoTeste).comparacoes ≤
      estadoTeste.totalComponentes * (estadoTeste.totalComponentes - 1) / 2 ∧
    (insertionSort estadoTeste).comparacoes =
      inversoes estadoTeste.torre estadoTeste.totalComponentes +
        paradas estadoTeste.torre estadoTeste.totalComponentes :=
  ⟨by decide, by decide, insertionSort_comparacoes_geral estadoTeste (by decide) (by decide)⟩

/-! ## buscaBinaria on an empty tower, in the states the program reaches -/

end FreeFire
